import Mathlib

set_option autoImplicit false

namespace Ccrecall

/-!  Shallow embedding of the ccrecall (cclog) ingestion and retrieval core.

The data model mirrors `schema.sql`: tables become lists of typed rows keyed
by their primary-key column, SQL `NULL` becomes `Option`, and JS millisecond
timestamps become `Int`.  The `Database` methods of `src/db.ts` become pure
functions `DB → ... → DB`; the sync engine of `sync.ts` is embedded as an
operation-trace generator plus an interpreter that models SQLite autocommit,
`BEGIN`/`COMMIT` staging, and the foreign-key pragma toggle.  -/

/-- A row of the `sessions` table (`schema.sql`). -/
structure SessionRow where
  id : String
  project_path : String
  git_branch : Option String
  cwd : Option String
  first_timestamp : Int
  last_timestamp : Int
  summary : Option String
deriving DecidableEq, Repr

/-- A row of the `messages` table (`schema.sql`). -/
structure MessageRow where
  uuid : String
  session_id : String
  parent_uuid : Option String
  type : String
  model : Option String
  content_text : Option String
  content_json : Option String
  thinking : Option String
  timestamp : Int
  input_tokens : Int
  output_tokens : Int
  cache_read_tokens : Int
  cache_creation_tokens : Int
deriving DecidableEq, Repr

/-- A row of the `tool_calls` table (the table is named in the repo docs and
used by `sync.ts`; columns follow the `insert_tool_call` call sites). -/
structure ToolCallRow where
  id : String
  message_uuid : String
  session_id : String
  tool_name : String
  tool_input : String
  timestamp : Int
deriving DecidableEq, Repr

/-- A row of the `tool_results` table (columns follow the
`insert_tool_result` call sites in `sync.ts`). -/
structure ToolResultRow where
  tool_call_id : String
  message_uuid : String
  session_id : String
  content : Option String
  is_error : Bool
  timestamp : Int
deriving DecidableEq, Repr

/-- A row of the `sync_state` table (`schema.sql`). -/
structure SyncStateRow where
  file_path : String
  last_modified : Int
  last_byte_offset : Int
deriving DecidableEq, Repr

/-- The whole store: one list of rows per table. -/
structure DB where
  sessions : List SessionRow
  messages : List MessageRow
  tool_calls : List ToolCallRow
  tool_results : List ToolResultRow
  sync_state : List SyncStateRow
deriving DecidableEq, Repr

/-- The empty store. -/
def DB.empty : DB := ⟨[], [], [], [], []⟩

/-- Argument record of `Database.upsert_session` (`db.ts` lines 21-28);
optional JS fields become `Option`. -/
structure SessionIn where
  id : String
  project_path : String
  git_branch : Option String
  cwd : Option String
  timestamp : Int
  summary : Option String
deriving DecidableEq, Repr

/-- `Database.upsert_session` (`db.ts`): `INSERT INTO sessions ... ON
CONFLICT(id) DO UPDATE SET last_timestamp = MAX(last_timestamp,
excluded.last_timestamp), summary = COALESCE(excluded.summary, summary)`.
Both `first_timestamp` and `last_timestamp` of a fresh row are the single
`timestamp` argument (`db.ts` lines 41-42). -/
def upsert_session (db : DB) (s : SessionIn) : DB :=
  if (db.sessions.find? (fun r => r.id == s.id)).isSome then
    { db with sessions := db.sessions.map (fun r =>
        if r.id == s.id then
          { r with
              last_timestamp := max r.last_timestamp s.timestamp,
              summary := match s.summary with
                | some v => some v
                | none => r.summary }
        else r) }
  else
    { db with sessions := db.sessions ++
        [⟨s.id, s.project_path, s.git_branch, s.cwd, s.timestamp, s.timestamp, s.summary⟩] }

/-- Argument record of `Database.insert_message` (`db.ts` lines 47-61). -/
structure MessageIn where
  uuid : String
  session_id : String
  parent_uuid : Option String
  type : String
  model : Option String
  content_text : Option String
  content_json : Option String
  thinking : Option String
  timestamp : Int
  input_tokens : Option Int
  output_tokens : Option Int
  cache_read_tokens : Option Int
  cache_creation_tokens : Option Int
deriving DecidableEq, Repr

/-- The row bound by `insert_message`'s `stmt.run` (`db.ts` lines 69-83):
absent token counters default to `0`, absent text fields to `NULL`. -/
def message_row (m : MessageIn) : MessageRow :=
  ⟨m.uuid, m.session_id, m.parent_uuid, m.type, m.model, m.content_text,
   m.content_json, m.thinking, m.timestamp, m.input_tokens.getD 0,
   m.output_tokens.getD 0, m.cache_read_tokens.getD 0,
   m.cache_creation_tokens.getD 0⟩

/-- `Database.insert_message` (`db.ts`): `INSERT OR IGNORE INTO messages ...`
— a row whose `uuid` already exists is silently skipped, leaving every
existing row untouched. -/
def insert_message (db : DB) (m : MessageIn) : DB :=
  if db.messages.any (fun r => r.uuid == m.uuid) then db
  else { db with messages := db.messages ++ [message_row m] }

/-- Modelled from the spec: `Database.insert_tool_call` is absent from the
sources provided (only its `sync.ts` call sites and the repo docs remain);
per §4.4 secondary-entity inserts are "insert-or-ignore keyed by unique
identifier". -/
def insert_tool_call (db : DB) (t : ToolCallRow) : DB :=
  if db.tool_calls.any (fun r => r.id == t.id) then db
  else { db with tool_calls := db.tool_calls ++ [t] }

/-- Modelled from the spec: `Database.insert_tool_result` is absent from the
sources provided; per §4.4 and §3 it follows the same insert-or-ignore
contract, keyed by its identifier (`tool_call_id`). -/
def insert_tool_result (db : DB) (t : ToolResultRow) : DB :=
  if db.tool_results.any (fun r => r.tool_call_id == t.tool_call_id) then db
  else { db with tool_results := db.tool_results ++ [t] }

/-- `Database.get_sync_state` (`db.ts`): the stored cursor for a file path. -/
def get_sync_state (db : DB) (fp : String) : Option SyncStateRow :=
  db.sync_state.find? (fun r => r.file_path == fp)

/-- `Database.set_sync_state` (`db.ts`): `INSERT INTO sync_state ... ON
CONFLICT(file_path) DO UPDATE SET last_modified = excluded.last_modified,
last_byte_offset = excluded.last_byte_offset` — full replace per path. -/
def set_sync_state (db : DB) (fp : String) (lm off : Int) : DB :=
  if (db.sync_state.find? (fun r => r.file_path == fp)).isSome then
    { db with sync_state := db.sync_state.map (fun r =>
        if r.file_path == fp then ⟨fp, lm, off⟩ else r) }
  else
    { db with sync_state := db.sync_state ++ [⟨fp, lm, off⟩] }

/-- Modelled from the spec: `Database.reset_sync_state` is absent from the
sources provided (only its `sync.ts` call site remains); per §4.3 it
"clears every stored sync cursor" and touches no other table. -/
def reset_sync_state (db : DB) : DB := { db with sync_state := [] }

/-- Row counts exposed by `Database.get_stats` (`db.ts` lines 112-142), plus
the tool-call count — modelled from the spec: the `db.ts` snapshot in the
sources predates the `tool_calls` table, while its caller `sync.ts` reads
`stats.tool_calls`; per §4.4 `get_stats` reports "counts ... across all
sessions/messages" including secondary entities. -/
def get_stats (db : DB) : Nat × Nat × Nat :=
  (db.sessions.length, db.messages.length, db.tool_calls.length)

/-- The stored session row for an id, as read back by any query
(`SELECT ... FROM sessions WHERE id = ?`). -/
def get_session (db : DB) (id : String) : Option SessionRow :=
  db.sessions.find? (fun r => r.id == id)

/-! ### Helper lemmas -/

theorem find?_map_congr {α : Type} (g : α → α) (p : α → Bool)
    (h : ∀ x, p (g x) = p x) :
    ∀ l : List α, (l.map g).find? p = (l.find? p).map g := by
  intro l
  induction l with
  | nil => rfl
  | cons a t ih =>
    by_cases hp : p a
    · simp [List.find?_cons, h, hp]
    · simp only [List.map_cons, List.find?_cons, h a]
      rw [Bool.not_eq_true] at hp
      simp [hp, ih]

theorem find?_append_none {α : Type} (p : α → Bool) (l1 l2 : List α)
    (h : l1.find? p = none) : (l1 ++ l2).find? p = l2.find? p := by
  induction l1 with
  | nil => rfl
  | cons a t ih =>
    by_cases hp : p a
    · simp [List.find?_cons, hp] at h
    · rw [Bool.not_eq_true] at hp
      simp only [List.find?_cons, hp] at h
      simp only [List.cons_append, List.find?_cons, hp]
      exact ih h

/-- The row stored under `s.id` after an upsert that hit an existing row. -/
theorem get_session_upsert_existing (db : DB) (s : SessionIn) (r : SessionRow)
    (h : get_session db s.id = some r) :
    get_session (upsert_session db s) s.id =
      some { r with
        last_timestamp := max r.last_timestamp s.timestamp,
        summary := match s.summary with
          | some v => some v
          | none => r.summary } := by
  unfold get_session at h
  have hsome : (db.sessions.find? (fun x => x.id == s.id)).isSome := by
    rw [h]; rfl
  have hpr := List.find?_some h
  simp only [] at hpr
  unfold upsert_session get_session
  rw [if_pos hsome]
  have hcong : ∀ x : SessionRow,
      ((if x.id == s.id then
          { x with
              last_timestamp := max x.last_timestamp s.timestamp,
              summary := match s.summary with
                | some v => some v
                | none => x.summary }
        else x).id == s.id) = (x.id == s.id) := by
    intro x
    by_cases hx : x.id == s.id
    · simp [hx]
    · rw [Bool.not_eq_true] at hx
      simp [hx]
  rw [find?_map_congr _ _ hcong db.sessions, h]
  have hid : r.id = s.id := by simpa using hpr
  simp [hid]

/-! ### Claims C1, C10: upsert merge semantics and frame -/

/-- C1: for every session upsert onto an existing session id, the stored
`last_timestamp` becomes the maximum of the existing and incoming
timestamps, and the stored summary is replaced exactly when the incoming
summary is non-null — an upsert with a null summary never blanks a stored
non-null summary. -/
theorem upsert_session_merge_semantics (db : DB) (s : SessionIn) (r : SessionRow)
    (h : get_session db s.id = some r) :
    ∃ r', get_session (upsert_session db s) s.id = some r' ∧
      r'.last_timestamp = max r.last_timestamp s.timestamp ∧
      (∀ v, s.summary = some v → r'.summary = some v) ∧
      (s.summary = none → r'.summary = r.summary) := by
  refine ⟨_, get_session_upsert_existing db s r h, rfl, ?_, ?_⟩
  · intro v hv
    simp [hv]
  · intro hv
    simp [hv]

/-- Concrete sessions used by the witnesses below. -/
def exSessionIn1 : SessionIn := ⟨"s", "/p", none, none, 1, some "first summary"⟩

def exSessionIn2 : SessionIn := ⟨"s", "/p2", some "main", some "/cwd", 2, none⟩

def exRow1 : SessionRow := ⟨"s", "/p", none, none, 1, 1, some "first summary"⟩

def exDB1 : DB := upsert_session DB.empty exSessionIn1

/-- C1 witness: a store holding session `"s"` at timestamp 1 with a summary,
upserted at timestamp 2 with a null summary. -/
theorem upsert_session_merge_semantics_witness :
    get_session exDB1 exSessionIn2.id = some exRow1 ∧
    ∃ r', get_session (upsert_session exDB1 exSessionIn2) exSessionIn2.id = some r' ∧
      r'.last_timestamp = max exRow1.last_timestamp exSessionIn2.timestamp ∧
      (∀ v, exSessionIn2.summary = some v → r'.summary = some v) ∧
      (exSessionIn2.summary = none → r'.summary = exRow1.summary) :=
  ⟨by decide, upsert_session_merge_semantics exDB1 exSessionIn2 exRow1 (by decide)⟩

/-- C10: an upsert that hits an existing session id changes no column other
than `last_timestamp` and `summary`: the stored `project_path`,
`git_branch`, `cwd` and `first_timestamp` keep their original values
whatever the conflicting call supplied. -/
theorem upsert_session_frame (db : DB) (s : SessionIn) (r : SessionRow)
    (h : get_session db s.id = some r) :
    ∃ r', get_session (upsert_session db s) s.id = some r' ∧
      r'.id = r.id ∧
      r'.project_path = r.project_path ∧
      r'.git_branch = r.git_branch ∧
      r'.cwd = r.cwd ∧
      r'.first_timestamp = r.first_timestamp :=
  ⟨_, get_session_upsert_existing db s r h, rfl, rfl, rfl, rfl, rfl⟩

/-- C10 witness: the conflicting call carries a different project path,
branch, cwd and an earlier timestamp; the stored columns survive. -/
theorem upsert_session_frame_witness :
    get_session exDB1 exSessionIn2.id = some exRow1 ∧
    ∃ r', get_session (upsert_session exDB1 exSessionIn2) exSessionIn2.id = some r' ∧
      r'.id = exRow1.id ∧
      r'.project_path = exRow1.project_path ∧
      r'.git_branch = exRow1.git_branch ∧
      r'.cwd = exRow1.cwd ∧
      r'.first_timestamp = exRow1.first_timestamp :=
  ⟨by decide, upsert_session_frame exDB1 exSessionIn2 exRow1 (by decide)⟩

/-! ### Claim C2: duplicate inserts are no-ops -/

/-- C2: inserting a message whose `uuid` already exists is a no-op — no
error, no overwrite, no mutation of any stored row; tool-call and
tool-result inserts keyed by their identifiers behave the same way. -/
theorem insert_duplicate_noop (db : DB) (m : MessageIn)
    (tc : ToolCallRow) (tr : ToolResultRow) :
    ((∃ r ∈ db.messages, r.uuid = m.uuid) → insert_message db m = db) ∧
    ((∃ r ∈ db.tool_calls, r.id = tc.id) → insert_tool_call db tc = db) ∧
    ((∃ r ∈ db.tool_results, r.tool_call_id = tr.tool_call_id) →
      insert_tool_result db tr = db) := by
  refine ⟨fun ⟨r, hr, he⟩ => ?_, fun ⟨r, hr, he⟩ => ?_, fun ⟨r, hr, he⟩ => ?_⟩
  · unfold insert_message
    rw [if_pos (List.any_eq_true.mpr ⟨r, hr, by simp [he]⟩)]
  · unfold insert_tool_call
    rw [if_pos (List.any_eq_true.mpr ⟨r, hr, by simp [he]⟩)]
  · unfold insert_tool_result
    rw [if_pos (List.any_eq_true.mpr ⟨r, hr, by simp [he]⟩)]

/-- A store holding one message, one tool call and one tool result. -/
def exDB2 : DB :=
  ⟨[exRow1],
   [⟨"m1", "s", none, "human", none, some "hello", none, none, 5, 0, 0, 0, 0⟩],
   [⟨"tc1", "m1", "s", "Read", "\x7b\x7d", 5⟩],
   [⟨"tc1", "m1", "s", some "ok", false, 5⟩],
   []⟩

/-- A conflicting message insert reusing uuid `"m1"` with different fields. -/
def exMsgIn : MessageIn :=
  ⟨"m1", "s2", some "pp", "assistant", some "mdl", some "other", none, none,
   9, some 1, some 2, some 3, some 4⟩

/-- C2 witness: duplicate message, tool-call and tool-result inserts on a
concrete store leave it untouched. -/
theorem insert_duplicate_noop_witness :
    insert_message exDB2 exMsgIn = exDB2 ∧
    insert_tool_call exDB2 ⟨"tc1", "m9", "s9", "Bash", "x", 7⟩ = exDB2 ∧
    insert_tool_result exDB2 ⟨"tc1", "m9", "s9", none, true, 7⟩ = exDB2 :=
  ⟨(insert_duplicate_noop exDB2 exMsgIn ⟨"tc1", "m9", "s9", "Bash", "x", 7⟩
      ⟨"tc1", "m9", "s9", none, true, 7⟩).1 (by decide),
   (insert_duplicate_noop exDB2 exMsgIn ⟨"tc1", "m9", "s9", "Bash", "x", 7⟩
      ⟨"tc1", "m9", "s9", none, true, 7⟩).2.1 (by decide),
   (insert_duplicate_noop exDB2 exMsgIn ⟨"tc1", "m9", "s9", "Bash", "x", 7⟩
      ⟨"tc1", "m9", "s9", none, true, 7⟩).2.2 (by decide)⟩

/-! ### Sync engine (`sync.ts`) as an operation trace

`sync` interleaves database calls with file parsing.  We embed it as a
generator of the list of database operations a run issues, together with a
connection-level interpreter that models SQLite autocommit, `BEGIN`/`COMMIT`
staging and the foreign-key pragma.  -/

/-- A tool-invocation sub-record embedded in a parsed message (fields follow
the `insert_tool_call` call site in `sync.ts`). -/
structure ToolCallSub where
  id : String
  tool_name : String
  tool_input : String
deriving DecidableEq, Repr

/-- A tool-result sub-record embedded in a parsed message (fields follow the
`insert_tool_result` call site in `sync.ts`). -/
structure ToolResultSub where
  tool_call_id : String
  content : Option String
  is_error : Bool
deriving DecidableEq, Repr

/-- A structured record produced by the transcript parser, as consumed by
`sync.ts` (fields follow its uses there; `parser.ts` itself is absent from
the sources provided). -/
structure ParsedMsg where
  uuid : String
  session_id : String
  parent_uuid : Option String
  type : String
  model : Option String
  content_text : Option String
  content_json : Option String
  thinking : Option String
  timestamp : Int
  git_branch : Option String
  cwd : Option String
  summary : Option String
  input_tokens : Option Int
  output_tokens : Option Int
  cache_read_tokens : Option Int
  cache_creation_tokens : Option Int
  tool_calls : List ToolCallSub
  tool_results : List ToolResultSub
deriving DecidableEq, Repr

/-- The `insert_message` argument built from a parsed record. -/
def msg_in (m : ParsedMsg) : MessageIn :=
  ⟨m.uuid, m.session_id, m.parent_uuid, m.type, m.model, m.content_text,
   m.content_json, m.thinking, m.timestamp, m.input_tokens, m.output_tokens,
   m.cache_read_tokens, m.cache_creation_tokens⟩

/-- One transcript file as the sync engine sees it: path, mtime, the project
path `extract_project_path` derives from the path, and the full list of
(record, byte-offset-after-record) pairs its lines parse to. -/
structure TranscriptFile where
  path : String
  project_path : String
  last_modified : Int
  lines : List (ParsedMsg × Int)
deriving DecidableEq, Repr

/-- Modelled from the spec: `parse_file` (`parser.ts` is absent from the
sources provided) resumes at the given byte offset and produces, forward
only, exactly the records ending past that offset (§4.2-§4.3). -/
def parse_file (f : TranscriptFile) (start : Int) : List (ParsedMsg × Int) :=
  f.lines.filter (fun p => decide (start < p.2))

/-- One database call issued by a sync run. -/
inductive Op where
  | disableFK : Op
  | enableFK : Op
  | beginTxn : Op
  | commitTxn : Op
  | upsertSessionOp (s : SessionIn) : Op
  | insertMessageOp (m : MessageIn) : Op
  | insertToolCallOp (t : ToolCallRow) : Op
  | insertToolResultOp (t : ToolResultRow) : Op
  | setSyncStateOp (fp : String) (lm off : Int) : Op
  | resetSyncStateOp : Op
deriving DecidableEq, Repr

/-- Effect of one operation on the plain store. -/
def apply_op (db : DB) (op : Op) : DB :=
  match op with
  | .disableFK => db
  | .enableFK => db
  | .beginTxn => db
  | .commitTxn => db
  | .upsertSessionOp s => upsert_session db s
  | .insertMessageOp m => insert_message db m
  | .insertToolCallOp t => insert_tool_call db t
  | .insertToolResultOp t => insert_tool_result db t
  | .setSyncStateOp fp lm off => set_sync_state db fp lm off
  | .resetSyncStateOp => reset_sync_state db

/-- Run a list of operations directly against the store. -/
def run_ops (db : DB) (ops : List Op) : DB := ops.foldl apply_op db

/-- A database connection: the durable store, the staged state of an open
transaction if any, and the foreign-key pragma. -/
structure Conn where
  durable : DB
  txn : Option DB
  fk_enabled : Bool
deriving DecidableEq, Repr

/-- Modelled from the spec: SQLite connection semantics (§4.3, §5) — outside
an explicit transaction every statement autocommits; `BEGIN` opens a staged
copy, `COMMIT` makes it durable; nothing staged is durable before the
commit, and a crash discards the staged state. -/
def step (c : Conn) (op : Op) : Conn :=
  match op with
  | .beginTxn => { c with txn := some c.durable }
  | .commitTxn =>
      match c.txn with
      | some d => { c with durable := d, txn := none }
      | none => c
  | .disableFK => { c with fk_enabled := false }
  | .enableFK => { c with fk_enabled := true }
  | _ =>
      match c.txn with
      | some d => { c with txn := some (apply_op d op) }
      | none => { c with durable := apply_op c.durable op }

/-- Execute a list of operations on a connection. -/
def exec (c : Conn) (ops : List Op) : Conn := ops.foldl step c

/-- A fresh connection on a durable store (`enableForeignKeyConstraints:
true` in the `Database` constructor). -/
def init_conn (db : DB) : Conn := ⟨db, none, true⟩

/-- JS truthiness of `message.summary` in `sync.ts`: non-null and non-empty. -/
def truthy (s : Option String) : Bool :=
  match s with
  | some v => !(v == "")
  | none => false

/-- Operations issued for one parsed record (`sync.ts` lines 126-177): a
session upsert on first sight of the session id within the run, a summary
upsert for summary records with a truthy summary, the message insert, and
the secondary-entity inserts. -/
def record_ops (pp : String) (seen : List String) (m : ParsedMsg) : List Op :=
  (if seen.contains m.session_id then []
   else [Op.upsertSessionOp ⟨m.session_id, pp, m.git_branch, m.cwd, m.timestamp, m.summary⟩]) ++
  (if m.type == "summary" && truthy m.summary then
     [Op.upsertSessionOp ⟨m.session_id, pp, none, none, m.timestamp, m.summary⟩]
   else []) ++
  [Op.insertMessageOp (msg_in m)] ++
  m.tool_calls.map (fun t =>
    Op.insertToolCallOp ⟨t.id, m.uuid, m.session_id, t.tool_name, t.tool_input, m.timestamp⟩) ++
  m.tool_results.map (fun t =>
    Op.insertToolResultOp ⟨t.tool_call_id, m.uuid, m.session_id, t.content, t.is_error, m.timestamp⟩)

/-- `seen_sessions` after one record. -/
def record_seen (seen : List String) (m : ParsedMsg) : List String :=
  if seen.contains m.session_id then seen else m.session_id :: seen

/-- Operations and final `seen_sessions` for a list of records. -/
def recs_ops (pp : String) (seen : List String) : List ParsedMsg → List Op × List String
  | [] => ([], seen)
  | m :: rest =>
      let ops2 := recs_ops pp (record_seen seen m) rest
      (record_ops pp seen m ++ ops2.1, ops2.2)

/-- Change detection (`sync.ts` line 106): skip the file when a cursor is
stored and its mtime is at least the file's current mtime. -/
def skip_file (db : DB) (f : TranscriptFile) : Bool :=
  match get_sync_state db f.path with
  | some st => decide (f.last_modified ≤ st.last_modified)
  | none => false

/-- Resume point (`sync.ts` line 110): stored byte offset, `0` if unseen. -/
def resume_offset (db : DB) (f : TranscriptFile) : Int :=
  match get_sync_state db f.path with
  | some st => st.last_byte_offset
  | none => 0

/-- The `last_byte_offset` variable after the per-file loop: the offset of
the last record parsed this pass, or the resume offset if none was. -/
def final_offset (db : DB) (f : TranscriptFile) : Int :=
  (parse_file f (resume_offset db f)).foldl (fun _ p => p.2) (resume_offset db f)

/-- Operations issued for one file (`sync.ts` lines 93-186): skip unchanged
files; otherwise apply every newly parsed record, then persist the cursor. -/
def file_ops (db : DB) (seen : List String) (f : TranscriptFile) : List Op × List String :=
  if skip_file db f then ([], seen)
  else
    ((recs_ops f.project_path seen ((parse_file f (resume_offset db f)).map Prod.fst)).1 ++
       [Op.setSyncStateOp f.path f.last_modified (final_offset db f)],
     (recs_ops f.project_path seen ((parse_file f (resume_offset db f)).map Prod.fst)).2)

/-- Operations issued for the file list, threading the staged store (later
files see the cursor writes of earlier ones) and `seen_sessions`. -/
def files_ops (db : DB) (seen : List String) : List TranscriptFile → List Op
  | [] => []
  | f :: fs =>
      let fo := file_ops db seen f
      fo.1 ++ files_ops (run_ops db fo.1) fo.2 fs

/-- The migration condition (`sync.ts` lines 67-68): stored messages exist
but no stored tool calls. -/
def migration_cond (db : DB) : Bool :=
  decide (0 < (get_stats db).2.1) && ((get_stats db).2.2 == 0)

/-- The pre-transaction migration step: reset every cursor when the
condition holds (`sync.ts` lines 66-73). -/
def mig_ops (db : DB) : List Op :=
  if migration_cond db then [Op.resetSyncStateOp] else []

/-- The full operation trace of one `sync` run (`sync.ts` lines 53-196):
migration check, then `disable_foreign_keys`, `begin`, the per-file work,
`commit`, `enable_foreign_keys`. -/
def sync_trace (db : DB) (files : List TranscriptFile) : List Op :=
  mig_ops db ++ [Op.disableFK, Op.beginTxn] ++
    files_ops (run_ops db (mig_ops db)) [] files ++ [Op.commitTxn, Op.enableFK]

/-- The durable store after a completed `sync` run. -/
def sync_run (db : DB) (files : List TranscriptFile) : DB :=
  (exec (init_conn db) (sync_trace db files)).durable

/-! ### Structural lemmas about the trace and its interpreter -/

/-- Operations that are neither transaction control nor a pragma toggle. -/
def Op.is_data : Op → Bool
  | .disableFK => false
  | .enableFK => false
  | .beginTxn => false
  | .commitTxn => false
  | _ => true

/-- Row-writing operations issued by the per-record apply. -/
def Op.is_write : Op → Bool
  | .upsertSessionOp _ => true
  | .insertMessageOp _ => true
  | .insertToolCallOp _ => true
  | .insertToolResultOp _ => true
  | _ => false

theorem exec_append (c : Conn) (l1 l2 : List Op) :
    exec c (l1 ++ l2) = exec (exec c l1) l2 := by
  unfold exec
  rw [List.foldl_append]

theorem run_ops_append (db : DB) (l1 l2 : List Op) :
    run_ops db (l1 ++ l2) = run_ops (run_ops db l1) l2 := by
  unfold run_ops
  rw [List.foldl_append]

theorem step_data (c : Conn) (op : Op) (h : op.is_data = true) :
    step c op = match c.txn with
      | some d => { c with txn := some (apply_op d op) }
      | none => { c with durable := apply_op c.durable op } := by
  cases op <;> simp_all [Op.is_data, step]

theorem exec_data_auto (db : DB) (fk : Bool) (ops : List Op)
    (h : ∀ op ∈ ops, op.is_data = true) :
    exec ⟨db, none, fk⟩ ops = ⟨run_ops db ops, none, fk⟩ := by
  induction ops generalizing db with
  | nil => rfl
  | cons op rest ih =>
    have h1 := h op (List.mem_cons_self op rest)
    show exec (step ⟨db, none, fk⟩ op) rest = _
    rw [step_data _ _ h1]
    exact ih (apply_op db op) (fun o ho => h o (List.mem_cons_of_mem _ ho))

theorem exec_data_txn (db t : DB) (fk : Bool) (ops : List Op)
    (h : ∀ op ∈ ops, op.is_data = true) :
    exec ⟨db, some t, fk⟩ ops = ⟨db, some (run_ops t ops), fk⟩ := by
  induction ops generalizing t with
  | nil => rfl
  | cons op rest ih =>
    have h1 := h op (List.mem_cons_self op rest)
    show exec (step ⟨db, some t, fk⟩ op) rest = _
    rw [step_data _ _ h1]
    exact ih (apply_op t op) (fun o ho => h o (List.mem_cons_of_mem _ ho))

theorem record_ops_write (pp : String) (seen : List String) (m : ParsedMsg) :
    ∀ op ∈ record_ops pp seen m, op.is_write = true := by
  intro op hop
  unfold record_ops at hop
  rcases List.mem_append.mp hop with h | h
  swap
  · rcases List.mem_map.mp h with ⟨t, _, rfl⟩; rfl
  rcases List.mem_append.mp h with h | h
  swap
  · rcases List.mem_map.mp h with ⟨t, _, rfl⟩; rfl
  rcases List.mem_append.mp h with h | h
  swap
  · simp only [List.mem_singleton] at h
    subst h; rfl
  rcases List.mem_append.mp h with h | h
  · split at h
    · cases h
    · simp only [List.mem_singleton] at h
      subst h; rfl
  · split at h
    · simp only [List.mem_singleton] at h
      subst h; rfl
    · cases h

theorem recs_ops_write (pp : String) (recs : List ParsedMsg) :
    ∀ seen, ∀ op ∈ (recs_ops pp seen recs).1, op.is_write = true := by
  induction recs with
  | nil =>
    intro seen op hop
    simp [recs_ops] at hop
  | cons m rest ih =>
    intro seen op hop
    unfold recs_ops at hop
    rcases List.mem_append.mp hop with h | h
    · exact record_ops_write _ _ _ _ h
    · exact ih _ _ h

theorem write_data (op : Op) (h : op.is_write = true) : op.is_data = true := by
  cases op <;> simp_all [Op.is_write, Op.is_data]

theorem write_not_set (op : Op) (h : op.is_write = true) :
    ∀ fp lm off, op ≠ Op.setSyncStateOp fp lm off := by
  cases op <;> simp_all [Op.is_write]

theorem file_ops_data (db : DB) (seen : List String) (f : TranscriptFile) :
    ∀ op ∈ (file_ops db seen f).1, op.is_data = true := by
  intro op hop
  unfold file_ops at hop
  split at hop
  · simp at hop
  · rcases List.mem_append.mp hop with h | h
    · exact write_data _ (recs_ops_write _ _ _ _ h)
    · simp only [List.mem_singleton] at h
      subst h; rfl

theorem files_ops_data (files : List TranscriptFile) :
    ∀ db seen, ∀ op ∈ files_ops db seen files, op.is_data = true := by
  induction files with
  | nil =>
    intro db seen op hop
    simp [files_ops] at hop
  | cons f fs ih =>
    intro db seen op hop
    unfold files_ops at hop
    rcases List.mem_append.mp hop with h | h
    · exact file_ops_data _ _ _ _ h
    · exact ih _ _ _ h

theorem mig_ops_data (db : DB) : ∀ op ∈ mig_ops db, op.is_data = true := by
  intro op hop
  unfold mig_ops at hop
  split at hop
  · simp only [List.mem_singleton] at hop
    subst hop; rfl
  · cases hop

/-- Connection state after the full trace of a run: everything committed,
transaction closed, foreign keys re-enabled. -/
theorem exec_sync_trace (db : DB) (files : List TranscriptFile) :
    exec (init_conn db) (sync_trace db files) =
      ⟨run_ops (run_ops db (mig_ops db)) (files_ops (run_ops db (mig_ops db)) [] files),
       none, true⟩ := by
  have hbody := files_ops_data files (run_ops db (mig_ops db)) []
  unfold sync_trace
  rw [exec_append, exec_append, exec_append]
  have h1 : exec (init_conn db) (mig_ops db) = ⟨run_ops db (mig_ops db), none, true⟩ :=
    exec_data_auto db true (mig_ops db) (mig_ops_data db)
  rw [h1]
  have h2 : exec ⟨run_ops db (mig_ops db), none, true⟩ [Op.disableFK, Op.beginTxn] =
      ⟨run_ops db (mig_ops db), some (run_ops db (mig_ops db)), false⟩ := rfl
  rw [h2, exec_data_txn _ _ _ _ hbody]
  rfl

/-- Durable state after a completed run, in terms of the plain-store
interpreter. -/
theorem sync_run_eq (db : DB) (files : List TranscriptFile) :
    sync_run db files =
      run_ops (run_ops db (mig_ops db)) (files_ops (run_ops db (mig_ops db)) [] files) := by
  unfold sync_run
  rw [exec_sync_trace]

/-! ### Claim C3: migration check -/

theorem insert_message_uuid_nodup (db : DB) (m : MessageIn)
    (h : (db.messages.map (fun r => r.uuid)).Nodup) :
    ((insert_message db m).messages.map (fun r => r.uuid)).Nodup := by
  unfold insert_message
  split
  · exact h
  · rename_i hany
    have hnot : (message_row m).uuid ∉ db.messages.map (fun r => r.uuid) := by
      intro hmem
      rcases List.mem_map.mp hmem with ⟨r, hr, he⟩
      exact hany (List.any_eq_true.mpr ⟨r, hr, by simp [he, message_row]⟩)
    show ((db.messages ++ [message_row m]).map (fun r => r.uuid)).Nodup
    rw [List.map_append]
    refine List.Nodup.append h (List.nodup_singleton _) ?_
    intro a ha hb
    simp only [List.map_cons, List.map_nil, List.mem_singleton] at hb
    subst hb
    exact hnot ha

theorem apply_op_uuid_nodup (db : DB) (op : Op)
    (h : (db.messages.map (fun r => r.uuid)).Nodup) :
    (((apply_op db op).messages).map (fun r => r.uuid)).Nodup := by
  cases op with
  | insertMessageOp m => exact insert_message_uuid_nodup db m h
  | upsertSessionOp s =>
    show (((upsert_session db s).messages).map (fun r => r.uuid)).Nodup
    unfold upsert_session
    split <;> exact h
  | insertToolCallOp t =>
    show (((insert_tool_call db t).messages).map (fun r => r.uuid)).Nodup
    unfold insert_tool_call
    split <;> exact h
  | insertToolResultOp t =>
    show (((insert_tool_result db t).messages).map (fun r => r.uuid)).Nodup
    unfold insert_tool_result
    split <;> exact h
  | setSyncStateOp fp lm off =>
    show (((set_sync_state db fp lm off).messages).map (fun r => r.uuid)).Nodup
    unfold set_sync_state
    split <;> exact h
  | _ => exact h

theorem run_ops_uuid_nodup (ops : List Op) :
    ∀ db : DB, (db.messages.map (fun r => r.uuid)).Nodup →
      ((run_ops db ops).messages.map (fun r => r.uuid)).Nodup := by
  induction ops with
  | nil => exact fun db h => h
  | cons op rest ih =>
    intro db h
    exact ih (apply_op db op) (apply_op_uuid_nodup db op h)

theorem apply_op_tool_calls_mono (db : DB) (op : Op) :
    ∀ r ∈ db.tool_calls, r ∈ (apply_op db op).tool_calls := by
  intro r hr
  cases op with
  | upsertSessionOp s =>
    show r ∈ (upsert_session db s).tool_calls
    unfold upsert_session
    split <;> exact hr
  | insertMessageOp m =>
    show r ∈ (insert_message db m).tool_calls
    unfold insert_message
    split <;> exact hr
  | insertToolCallOp t =>
    show r ∈ (insert_tool_call db t).tool_calls
    unfold insert_tool_call
    split
    · exact hr
    · exact List.mem_append_left _ hr
  | insertToolResultOp t =>
    show r ∈ (insert_tool_result db t).tool_calls
    unfold insert_tool_result
    split <;> exact hr
  | setSyncStateOp fp lm off =>
    show r ∈ (set_sync_state db fp lm off).tool_calls
    unfold set_sync_state
    split <;> exact hr
  | _ => exact hr

theorem run_ops_tool_calls_mono (ops : List Op) :
    ∀ db : DB, ∀ r ∈ db.tool_calls, r ∈ (run_ops db ops).tool_calls := by
  induction ops with
  | nil => exact fun _ _ hr => hr
  | cons op rest ih =>
    intro db r hr
    exact ih (apply_op db op) r (apply_op_tool_calls_mono db op r hr)

theorem insert_tool_call_mem (db : DB) (t : ToolCallRow) :
    ∃ r ∈ (insert_tool_call db t).tool_calls, r.id = t.id := by
  unfold insert_tool_call
  split
  · rename_i hany
    rcases List.any_eq_true.mp hany with ⟨r, hr, he⟩
    exact ⟨r, hr, by simpa using he⟩
  · exact ⟨t, List.mem_append_right _ (List.mem_singleton.mpr rfl), rfl⟩

/-- Any tool-call insert appearing among the operations leaves a stored row
with that identifier. -/
theorem run_ops_tool_call_coverage (ops : List Op) :
    ∀ (db : DB) (t : ToolCallRow), Op.insertToolCallOp t ∈ ops →
      ∃ r ∈ (run_ops db ops).tool_calls, r.id = t.id := by
  induction ops with
  | nil =>
    intro db t h
    cases h
  | cons op rest ih =>
    intro db t h
    rcases List.mem_cons.mp h with h1 | h1
    · show ∃ r ∈ (run_ops (apply_op db op) rest).tool_calls, r.id = t.id
      rw [← h1]
      obtain ⟨r, hr, he⟩ := insert_tool_call_mem db t
      exact ⟨r, run_ops_tool_calls_mono rest (insert_tool_call db t) r hr, he⟩
    · exact ih (apply_op db op) t h1

theorem record_ops_tool_call_mem (pp : String) (seen : List String) (m : ParsedMsg)
    (t : ToolCallSub) (ht : t ∈ m.tool_calls) :
    Op.insertToolCallOp ⟨t.id, m.uuid, m.session_id, t.tool_name, t.tool_input, m.timestamp⟩ ∈
      record_ops pp seen m := by
  unfold record_ops
  exact List.mem_append.mpr (Or.inl (List.mem_append.mpr (Or.inr
    (List.mem_map_of_mem _ ht))))

theorem recs_ops_tool_call_mem (pp : String) (recs : List ParsedMsg) :
    ∀ seen m, m ∈ recs → ∀ t ∈ m.tool_calls,
      Op.insertToolCallOp ⟨t.id, m.uuid, m.session_id, t.tool_name, t.tool_input, m.timestamp⟩ ∈
        (recs_ops pp seen recs).1 := by
  induction recs with
  | nil =>
    intro seen m hm
    cases hm
  | cons m0 rest ih =>
    intro seen m hm t ht
    show Op.insertToolCallOp _ ∈
      record_ops pp seen m0 ++ (recs_ops pp (record_seen seen m0) rest).1
    rcases List.mem_cons.mp hm with h1 | h1
    · subst h1
      exact List.mem_append.mpr (Or.inl (record_ops_tool_call_mem pp seen m t ht))
    · exact List.mem_append.mpr (Or.inr (ih (record_seen seen m0) m h1 t ht))

theorem get_sync_state_apply_none (db : DB) (op : Op) (fp : String)
    (h0 : get_sync_state db fp = none)
    (h : ∀ lm off, op ≠ Op.setSyncStateOp fp lm off) :
    get_sync_state (apply_op db op) fp = none := by
  cases op with
  | setSyncStateOp fp' lm off =>
    have hne : fp' ≠ fp := fun he => h lm off (by rw [he])
    show get_sync_state (set_sync_state db fp' lm off) fp = none
    unfold get_sync_state at h0 ⊢
    unfold set_sync_state
    split
    · have hcong : ∀ r : SyncStateRow,
          ((if r.file_path == fp' then (⟨fp', lm, off⟩ : SyncStateRow) else r).file_path == fp) =
            (r.file_path == fp) := by
        intro r
        by_cases hr : r.file_path == fp'
        · have : r.file_path = fp' := by simpa using hr
          simp [hr, this]
        · rw [Bool.not_eq_true] at hr
          simp [hr]
      show (db.sync_state.map (fun r =>
          if r.file_path == fp' then (⟨fp', lm, off⟩ : SyncStateRow) else r)).find?
          (fun r => r.file_path == fp) = none
      rw [find?_map_congr _ _ hcong db.sync_state, h0]
      rfl
    · show (db.sync_state ++ [(⟨fp', lm, off⟩ : SyncStateRow)]).find?
          (fun r => r.file_path == fp) = none
      rw [find?_append_none _ _ _ h0]
      have hbf : (fp' == fp) = false := beq_eq_false_iff_ne.mpr hne
      simp [List.find?, hbf]
  | resetSyncStateOp => rfl
  | upsertSessionOp s =>
    show get_sync_state (upsert_session db s) fp = none
    unfold upsert_session
    split <;> exact h0
  | insertMessageOp m =>
    show get_sync_state (insert_message db m) fp = none
    unfold insert_message
    split <;> exact h0
  | insertToolCallOp t =>
    show get_sync_state (insert_tool_call db t) fp = none
    unfold insert_tool_call
    split <;> exact h0
  | insertToolResultOp t =>
    show get_sync_state (insert_tool_result db t) fp = none
    unfold insert_tool_result
    split <;> exact h0
  | _ => exact h0

theorem sync_state_none_run (ops : List Op) :
    ∀ (db : DB) (fp : String), get_sync_state db fp = none →
      (∀ lm off, Op.setSyncStateOp fp lm off ∉ ops) →
      get_sync_state (run_ops db ops) fp = none := by
  induction ops with
  | nil => exact fun _ _ h0 _ => h0
  | cons op rest ih =>
    intro db fp h0 h
    have hop : ∀ lm off, op ≠ Op.setSyncStateOp fp lm off :=
      fun lm off he => h lm off (he ▸ List.mem_cons_self op rest)
    have hrest : ∀ lm off, Op.setSyncStateOp fp lm off ∉ rest :=
      fun lm off hm => h lm off (List.mem_cons_of_mem _ hm)
    exact ih (apply_op db op) fp (get_sync_state_apply_none db op fp h0 hop) hrest

theorem file_ops_set_path (db : DB) (seen : List String) (f : TranscriptFile)
    (fp : String) (lm off : Int)
    (h : Op.setSyncStateOp fp lm off ∈ (file_ops db seen f).1) : fp = f.path := by
  unfold file_ops at h
  split at h
  · simp at h
  · rcases List.mem_append.mp h with h1 | h1
    · exact absurd rfl (write_not_set _ (recs_ops_write _ _ _ _ h1) fp lm off)
    · simp only [List.mem_singleton, Op.setSyncStateOp.injEq] at h1
      exact h1.1

/-- When every file's cursor is absent at the start and paths are distinct,
the run's operations contain a tool-call insert for every tool-call
sub-record of every record ending past offset zero. -/
theorem files_ops_tool_call_mem (files : List TranscriptFile) :
    ∀ (db : DB) (seen : List String),
      (∀ f ∈ files, get_sync_state db f.path = none) →
      (files.map TranscriptFile.path).Nodup →
      ∀ f ∈ files, ∀ p ∈ f.lines, (0 : Int) < p.2 → ∀ t ∈ p.1.tool_calls,
        Op.insertToolCallOp
            ⟨t.id, p.1.uuid, p.1.session_id, t.tool_name, t.tool_input, p.1.timestamp⟩ ∈
          files_ops db seen files := by
  induction files with
  | nil =>
    intro db seen _ _ f hf
    cases hf
  | cons f0 fs ih =>
    intro db seen hnone hnd f hf p hp hpos t ht
    rw [List.map_cons, List.nodup_cons] at hnd
    obtain ⟨hnp, hndt⟩ := hnd
    show Op.insertToolCallOp _ ∈
      (file_ops db seen f0).1 ++
        files_ops (run_ops db (file_ops db seen f0).1) (file_ops db seen f0).2 fs
    rcases List.mem_cons.mp hf with h1 | h1
    · subst h1
      refine List.mem_append.mpr (Or.inl ?_)
      have hn0 : get_sync_state db f.path = none := hnone f (List.mem_cons_self f fs)
      have hskip : skip_file db f = false := by
        unfold skip_file
        rw [hn0]
      have hres : resume_offset db f = 0 := by
        unfold resume_offset
        rw [hn0]
      have hrec : p.1 ∈ (parse_file f (resume_offset db f)).map Prod.fst := by
        rw [hres]
        exact List.mem_map_of_mem _ (List.mem_filter.mpr ⟨hp, by simpa using hpos⟩)
      unfold file_ops
      rw [if_neg (by rw [hskip]; exact Bool.false_ne_true)]
      exact List.mem_append.mpr (Or.inl
        (recs_ops_tool_call_mem f.project_path _ seen p.1 hrec t ht))
    · refine List.mem_append.mpr (Or.inr ?_)
      refine ih (run_ops db (file_ops db seen f0).1) (file_ops db seen f0).2 ?_ hndt
        f h1 p hp hpos t ht
      intro f' hf'
      refine sync_state_none_run _ _ _ (hnone f' (List.mem_cons_of_mem _ hf')) ?_
      intro lm off hmem
      have heq := file_ops_set_path db seen f0 _ lm off hmem
      have hmem2 : f'.path ∈ fs.map TranscriptFile.path := List.mem_map_of_mem _ hf'
      rw [heq] at hmem2
      exact hnp hmem2

/-- C3: before any file of a run, a store with messages but no tool calls
has every sync cursor cleared while no session, message, tool-call or
tool-result row is deleted; the subsequent re-scan never duplicates a
message row (uuids stay pairwise distinct) and stores a tool-call row for
every tool-call sub-record of every replayed record. -/
theorem migration_reset_semantics (db : DB) (files : List TranscriptFile) :
    (0 < db.messages.length → db.tool_calls.length = 0 →
      migration_cond db = true ∧
      (run_ops db (mig_ops db)).sync_state = [] ∧
      (run_ops db (mig_ops db)).sessions = db.sessions ∧
      (run_ops db (mig_ops db)).messages = db.messages ∧
      (run_ops db (mig_ops db)).tool_calls = db.tool_calls ∧
      (run_ops db (mig_ops db)).tool_results = db.tool_results) ∧
    ((db.messages.map (fun r => r.uuid)).Nodup →
      ((sync_run db files).messages.map (fun r => r.uuid)).Nodup) ∧
    (0 < db.messages.length → db.tool_calls.length = 0 →
      (files.map TranscriptFile.path).Nodup →
      ∀ f ∈ files, ∀ p ∈ f.lines, (0 : Int) < p.2 → ∀ t ∈ p.1.tool_calls,
        ∃ r ∈ (sync_run db files).tool_calls, r.id = t.id) := by
  refine ⟨?_, ?_, ?_⟩
  · intro h1 h2
    have hc : migration_cond db = true := by
      unfold migration_cond get_stats
      simp [h1, h2]
    refine ⟨hc, ?_, ?_, ?_, ?_, ?_⟩ <;>
      simp [mig_ops, hc, run_ops, apply_op, reset_sync_state]
  · intro hn
    rw [sync_run_eq]
    exact run_ops_uuid_nodup _ _ (run_ops_uuid_nodup _ _ hn)
  · intro h1 h2 hnd f hf p hp hpos t ht
    have hc : migration_cond db = true := by
      unfold migration_cond get_stats
      simp [h1, h2]
    have hnone : ∀ f' ∈ files, get_sync_state (run_ops db (mig_ops db)) f'.path = none := by
      intro f' _
      unfold mig_ops
      rw [if_pos hc]
      rfl
    have hmem := files_ops_tool_call_mem files (run_ops db (mig_ops db)) []
      hnone hnd f hf p hp hpos t ht
    rw [sync_run_eq]
    exact run_ops_tool_call_coverage _ _ _ hmem

/-- A store that triggers the migration: one message, no tool calls, one
stored cursor. -/
def exMigDB : DB :=
  ⟨[], [⟨"m1", "s", none, "human", none, none, none, none, 1, 0, 0, 0, 0⟩],
   [], [], [⟨"f", 5, 100⟩]⟩

/-- A replayed record whose message uuid `"m1"` is already stored but which
carries a tool-call sub-record the store lacks. -/
def exMsgTC : ParsedMsg :=
  ⟨"m1", "s", none, "assistant", none, none, none, none, 3,
   none, none, none, none, none, none, none, [⟨"tc9", "Read", "x"⟩], []⟩

def exFileTC : TranscriptFile := ⟨"f", "proj", 9, [(exMsgTC, 80)]⟩

/-- C3 witness: on the migration store, re-scanning a file that replays the
stored message `"m1"` with a tool-call sub-record clears the cursor, keeps
every row, leaves message uuids distinct, and stores tool call `"tc9"`. -/
theorem migration_reset_semantics_witness :
    (migration_cond exMigDB = true ∧
      (run_ops exMigDB (mig_ops exMigDB)).sync_state = [] ∧
      (run_ops exMigDB (mig_ops exMigDB)).sessions = exMigDB.sessions ∧
      (run_ops exMigDB (mig_ops exMigDB)).messages = exMigDB.messages ∧
      (run_ops exMigDB (mig_ops exMigDB)).tool_calls = exMigDB.tool_calls ∧
      (run_ops exMigDB (mig_ops exMigDB)).tool_results = exMigDB.tool_results) ∧
    ((sync_run exMigDB [exFileTC]).messages.map (fun r => r.uuid)).Nodup ∧
    ∃ r ∈ (sync_run exMigDB [exFileTC]).tool_calls, r.id = "tc9" :=
  ⟨(migration_reset_semantics exMigDB [exFileTC]).1 (by decide) (by decide),
   (migration_reset_semantics exMigDB [exFileTC]).2.1 (by decide),
   (migration_reset_semantics exMigDB [exFileTC]).2.2 (by decide) (by decide) (by decide)
     exFileTC (by decide) (exMsgTC, 80) (by decide) (by decide)
     ⟨"tc9", "Read", "x"⟩ (by decide)⟩

/-! ### Claim C4: cursor commit -/

theorem foldl_snd_cases (l : List (ParsedMsg × Int)) (a : Int) :
    l.foldl (fun _ p => p.2) a = a ∨ ∃ p ∈ l, l.foldl (fun _ p => p.2) a = p.2 := by
  induction l generalizing a with
  | nil => exact Or.inl rfl
  | cons q t ih =>
    rcases ih q.2 with h | ⟨p, hp, he⟩
    · exact Or.inr ⟨q, List.mem_cons_self q t, by rw [List.foldl_cons]; exact h⟩
    · exact Or.inr ⟨p, List.mem_cons_of_mem _ hp, by rw [List.foldl_cons]; exact he⟩

theorem resume_le_final (db : DB) (f : TranscriptFile) :
    resume_offset db f ≤ final_offset db f := by
  unfold final_offset
  rcases foldl_snd_cases (parse_file f (resume_offset db f)) (resume_offset db f) with h | ⟨p, hp, he⟩
  · rw [h]
  · rw [he]
    unfold parse_file at hp
    have := List.of_mem_filter hp
    have hlt : resume_offset db f < p.2 := by simpa using this
    exact le_of_lt hlt

/-- C4: a processed (non-skipped) file's operations are exactly the
per-record applies followed by a single cursor write carrying the file's
mtime and final offset; no cursor write occurs among the record applies,
and the committed offset is at least the resume offset.  A skipped file
issues no operation at all. -/
theorem cursor_commit_once (db : DB) (seen : List String) (f : TranscriptFile) :
    (skip_file db f = false →
      file_ops db seen f =
        ((recs_ops f.project_path seen ((parse_file f (resume_offset db f)).map Prod.fst)).1 ++
           [Op.setSyncStateOp f.path f.last_modified (final_offset db f)],
         (recs_ops f.project_path seen ((parse_file f (resume_offset db f)).map Prod.fst)).2) ∧
      (∀ op ∈ (recs_ops f.project_path seen
          ((parse_file f (resume_offset db f)).map Prod.fst)).1,
        ∀ fp lm off, op ≠ Op.setSyncStateOp fp lm off) ∧
      resume_offset db f ≤ final_offset db f) ∧
    (skip_file db f = true → file_ops db seen f = ([], seen)) := by
  constructor
  · intro hskip
    refine ⟨?_, ?_, resume_le_final db f⟩
    · simp [file_ops, hskip]
    · intro op hop
      exact write_not_set op (recs_ops_write _ _ _ _ hop)
  · intro hskip
    simp [file_ops, hskip]

/-- A one-record transcript file. -/
def exMsgA : ParsedMsg :=
  ⟨"a", "s", none, "human", none, some "hi", none, none, 1,
   none, none, none, none, none, none, none, [], []⟩

def exFileA : TranscriptFile := ⟨"f.jsonl", "proj", 10, [(exMsgA, 50)]⟩

/-- C4 witness: a fresh store processes the file (no skip), writes the
cursor once with offset 50, and 0 ≤ 50. -/
theorem cursor_commit_once_witness :
    file_ops DB.empty [] exFileA =
      ((recs_ops exFileA.project_path []
          ((parse_file exFileA (resume_offset DB.empty exFileA)).map Prod.fst)).1 ++
         [Op.setSyncStateOp exFileA.path exFileA.last_modified
           (final_offset DB.empty exFileA)],
       (recs_ops exFileA.project_path []
          ((parse_file exFileA (resume_offset DB.empty exFileA)).map Prod.fst)).2) ∧
    resume_offset DB.empty exFileA ≤ final_offset DB.empty exFileA :=
  ⟨((cursor_commit_once DB.empty [] exFileA).1 (by decide)).1,
   ((cursor_commit_once DB.empty [] exFileA).1 (by decide)).2.2⟩

/-! ### Claim C5: transaction bracket -/

theorem durable_no_commit (ops : List Op) :
    ∀ c : Conn, c.txn.isSome = true → Op.commitTxn ∉ ops →
      (exec c ops).durable = c.durable ∧ (exec c ops).txn.isSome = true := by
  induction ops with
  | nil => exact fun c h1 _ => ⟨rfl, h1⟩
  | cons op rest ih =>
    intro c h1 h2
    have hne : op ≠ Op.commitTxn := fun he => h2 (he ▸ List.mem_cons_self op rest)
    have hrest : Op.commitTxn ∉ rest := fun hm => h2 (List.mem_cons_of_mem _ hm)
    rcases Option.isSome_iff_exists.mp h1 with ⟨d, hd⟩
    have hstep : (step c op).durable = c.durable ∧ (step c op).txn.isSome = true := by
      cases op
      case commitTxn => exact absurd rfl hne
      all_goals simp [step, hd]
    obtain ⟨ha, hb⟩ := ih (step c op) hstep.2 hrest
    exact ⟨ha.trans hstep.1, hb⟩

theorem durable_ctrl (ops : List Op) :
    ∀ c : Conn, (∀ op ∈ ops, op = Op.disableFK ∨ op = Op.beginTxn ∨ op = Op.enableFK) →
      (exec c ops).durable = c.durable := by
  induction ops with
  | nil => exact fun _ _ => rfl
  | cons op rest ih =>
    intro c h
    have h1 := h op (List.mem_cons_self op rest)
    have hstep : (step c op).durable = c.durable := by
      rcases h1 with rfl | rfl | rfl <;> rfl
    have := ih (step c op) (fun o ho => h o (List.mem_cons_of_mem _ ho))
    exact this.trans hstep

theorem fk_false_stable (ops : List Op) :
    ∀ c : Conn, c.fk_enabled = false → Op.enableFK ∉ ops →
      (exec c ops).fk_enabled = false := by
  induction ops with
  | nil => exact fun _ h _ => h
  | cons op rest ih =>
    intro c h1 h2
    have hne : op ≠ Op.enableFK := fun he => h2 (he ▸ List.mem_cons_self op rest)
    have hrest : Op.enableFK ∉ rest := fun hm => h2 (List.mem_cons_of_mem _ hm)
    have hstep : (step c op).fk_enabled = false := by
      cases op
      case enableFK => exact absurd rfl hne
      all_goals
        first
        | (simp only [step]; exact h1)
        | (simp only [step]; cases hc : c.txn <;> simp [hc, h1])
        | (cases hc : c.txn <;> simp [step, hc, h1])
    exact ih (step c op) hstep hrest

theorem prefix_split {α : Type} (A B p : List α) (h : p <+: A ++ B) :
    p <+: A ∨ ∃ q, p = A ++ q ∧ q <+: B := by
  by_cases hl : p.length ≤ A.length
  · exact Or.inl (List.prefix_of_prefix_length_le h (A.prefix_append B) hl)
  · right
    have hA : A <+: p := List.prefix_of_prefix_length_le (A.prefix_append B) h (by omega)
    rcases hA with ⟨q, rfl⟩
    refine ⟨q, rfl, ?_⟩
    rcases h with ⟨t, ht⟩
    rw [List.append_assoc] at ht
    exact ⟨t, List.append_cancel_left ht⟩

/-- Effect of the migration step alone. -/
theorem run_mig_ops (db : DB) :
    run_ops db (mig_ops db) =
      if migration_cond db then reset_sync_state db else db := by
  unfold mig_ops
  split <;> rfl

theorem mem_pair {α : Type} {a x y : α} (h : a ∈ [x, y]) : a = x ∨ a = y := by
  rcases List.mem_cons.mp h with h1 | h1
  · exact Or.inl h1
  · exact Or.inr (List.mem_singleton.mp h1)

/-- Durable state at any crash point before the commit: the original store,
except that a fired migration's cursor reset is already durable. -/
theorem sync_prefix_durable (db : DB) (files : List TranscriptFile) (p : List Op)
    (hp : p <+: sync_trace db files) (hc : Op.commitTxn ∉ p) :
    (exec (init_conn db) p).durable = db ∨
      ((exec (init_conn db) p).durable = reset_sync_state db ∧
        migration_cond db = true) := by
  have hgoal : ∀ p' : List Op,
      p' <+: (mig_ops db ++ [Op.disableFK, Op.beginTxn]) ++
        files_ops (run_ops db (mig_ops db)) [] files →
      Op.commitTxn ∉ p' →
      (exec (init_conn db) p').durable = db ∨
        ((exec (init_conn db) p').durable = reset_sync_state db ∧
          migration_cond db = true) := by
    intro p' hp' hc'
    rcases prefix_split (mig_ops db ++ [Op.disableFK, Op.beginTxn]) _ p' hp' with h1 | ⟨q, rfl, hq⟩
    · rcases prefix_split (mig_ops db) [Op.disableFK, Op.beginTxn] p' h1 with h2 | ⟨r, rfl, hr⟩
      · by_cases hm : migration_cond db = true
        · rw [mig_ops, if_pos hm] at h2
          rcases h2 with ⟨t, ht⟩
          cases p' with
          | nil => exact Or.inl rfl
          | cons a p'' =>
            injection ht with ht1 ht2
            subst ht1
            have hp'' : p'' = [] := by
              cases p'' with
              | nil => rfl
              | cons b p3 => simp at ht2
            subst hp''
            exact Or.inr ⟨rfl, hm⟩
        · rw [mig_ops, if_neg hm] at h2
          rw [List.prefix_nil.mp h2]
          exact Or.inl rfl
      · rw [exec_append]
        have h1' : exec (init_conn db) (mig_ops db) = ⟨run_ops db (mig_ops db), none, true⟩ :=
          exec_data_auto db true (mig_ops db) (mig_ops_data db)
        rw [h1']
        have hctrl : (exec ⟨run_ops db (mig_ops db), none, true⟩ r).durable =
            run_ops db (mig_ops db) := by
          apply durable_ctrl
          intro o ho
          have := hr.subset ho
          rcases mem_pair this with rfl | rfl
          · exact Or.inl rfl
          · exact Or.inr (Or.inl rfl)
        rw [hctrl, run_mig_ops]
        by_cases hm : migration_cond db = true
        · rw [if_pos hm]
          exact Or.inr ⟨rfl, hm⟩
        · rw [if_neg hm]
          exact Or.inl rfl
    · rw [exec_append]
      have h1' : exec (init_conn db) (mig_ops db ++ [Op.disableFK, Op.beginTxn]) =
          ⟨run_ops db (mig_ops db), some (run_ops db (mig_ops db)), false⟩ := by
        have h0 : exec (init_conn db) (mig_ops db) = ⟨run_ops db (mig_ops db), none, true⟩ :=
          exec_data_auto db true (mig_ops db) (mig_ops_data db)
        rw [exec_append, h0]
        rfl
      rw [h1']
      have hcq : Op.commitTxn ∉ q := fun hm =>
        hc' (List.mem_append.mpr (Or.inr hm))
      have := durable_no_commit q ⟨run_ops db (mig_ops db), some (run_ops db (mig_ops db)), false⟩
        rfl hcq
      rw [this.1]
      show run_ops db (mig_ops db) = db ∨ _
      rw [run_mig_ops]
      by_cases hm : migration_cond db = true
      · rw [if_pos hm]
        exact Or.inr ⟨rfl, hm⟩
      · rw [if_neg hm]
        exact Or.inl rfl
  rcases prefix_split ((mig_ops db ++ [Op.disableFK, Op.beginTxn]) ++
      files_ops (run_ops db (mig_ops db)) [] files) [Op.commitTxn, Op.enableFK] p hp
    with h | ⟨q, rfl, hq⟩
  · exact hgoal p h hc
  · have hq0 : q = [] := by
      rcases hq with ⟨t, ht⟩
      cases q with
      | nil => rfl
      | cons a q' =>
        injection ht with ht1 _
        exact absurd (List.mem_append.mpr (Or.inr (ht1 ▸ List.mem_cons_self a q'))) hc
    subst hq0
    rw [List.append_nil] at hc ⊢
    exact hgoal _ List.prefix_rfl hc

theorem not_mem_body (files : List TranscriptFile) (db : DB) (seen : List String)
    (op : Op) (h : op.is_data = false) : op ∉ files_ops db seen files := by
  intro hm
  have := files_ops_data files db seen op hm
  rw [this] at h
  cases h

theorem trace_counts (db : DB) (files : List TranscriptFile) :
    (sync_trace db files).count Op.beginTxn = 1 ∧
    (sync_trace db files).count Op.commitTxn = 1 := by
  have hb : Op.beginTxn ∉ files_ops (run_ops db (mig_ops db)) [] files :=
    not_mem_body files _ [] Op.beginTxn rfl
  have hcm : Op.commitTxn ∉ files_ops (run_ops db (mig_ops db)) [] files :=
    not_mem_body files _ [] Op.commitTxn rfl
  have hmb : (mig_ops db).count Op.beginTxn = 0 := by
    unfold mig_ops
    split <;> rfl
  have hmc : (mig_ops db).count Op.commitTxn = 0 := by
    unfold mig_ops
    split <;> rfl
  constructor <;>
    simp [sync_trace, List.count_append, hmb, hmc,
      List.count_eq_zero.mpr hb, List.count_eq_zero.mpr hcm]

/-- C5 (amended): the per-file work of a run sits inside one
`BEGIN`/`COMMIT` pair with foreign keys disabled throughout and re-enabled
at the end; a failure at any point before the commit leaves the durable
store exactly as it was before the run — except that when the migration
condition held, the pre-transaction cursor reset alone may already be
durable.  When the migration does not fire, the store is exactly as before
the run at every pre-commit crash point. -/
theorem sync_transaction_bracket (db : DB) (files : List TranscriptFile) :
    ((sync_trace db files).count Op.beginTxn = 1 ∧
     (sync_trace db files).count Op.commitTxn = 1) ∧
    (∃ body, sync_trace db files =
      (mig_ops db ++ [Op.disableFK, Op.beginTxn]) ++ body ++ [Op.commitTxn, Op.enableFK]) ∧
    (∀ s : List Op, Op.enableFK ∉ s →
      (exec (init_conn db) (mig_ops db ++ [Op.disableFK] ++ s)).fk_enabled = false) ∧
    (exec (init_conn db) (sync_trace db files)).fk_enabled = true ∧
    (∀ p, p <+: sync_trace db files → Op.commitTxn ∉ p →
      ((exec (init_conn db) p).durable = db ∨
       ((exec (init_conn db) p).durable = reset_sync_state db ∧
         migration_cond db = true))) ∧
    (migration_cond db = false →
      ∀ p, p <+: sync_trace db files → Op.commitTxn ∉ p →
        (exec (init_conn db) p).durable = db) := by
  refine ⟨trace_counts db files, ?_, ?_, ?_, sync_prefix_durable db files, ?_⟩
  · exact ⟨files_ops (run_ops db (mig_ops db)) [] files, by
      unfold sync_trace
      simp [List.append_assoc]⟩
  · intro s hs
    have h0 : exec (init_conn db) (mig_ops db ++ [Op.disableFK]) =
        ⟨run_ops db (mig_ops db), none, false⟩ := by
      have h1 : exec (init_conn db) (mig_ops db) = ⟨run_ops db (mig_ops db), none, true⟩ :=
        exec_data_auto db true (mig_ops db) (mig_ops_data db)
      rw [exec_append, h1]
      rfl
    rw [exec_append, h0]
    exact fk_false_stable s _ rfl hs
  · rw [exec_sync_trace]
  · intro hm p hp hc
    rcases sync_prefix_durable db files p hp hc with h | ⟨_, hm2⟩
    · exact h
    · rw [hm] at hm2
      cases hm2

/-- C5 counterexample to the claim as stated: on a store that triggers the
migration, the cursor reset is issued before `BEGIN`, so a crash right
after it — before any commit — leaves the store durably different from how
the run found it. -/
theorem sync_transaction_counterexample :
    [Op.resetSyncStateOp] <+: sync_trace exMigDB [] ∧
    Op.commitTxn ∉ [Op.resetSyncStateOp] ∧
    (exec (init_conn exMigDB) [Op.resetSyncStateOp]).durable ≠ exMigDB := by
  refine ⟨⟨[Op.disableFK, Op.beginTxn, Op.commitTxn, Op.enableFK], by decide⟩,
    by decide, by decide⟩

/-- C5 witness: on a store with no migration gap, the trace holds one
begin and one commit, and a crash after `disable_foreign_keys` leaves the
store untouched, with foreign keys off until re-enabled. -/
theorem sync_transaction_bracket_witness :
    ((sync_trace exDB2 []).count Op.beginTxn = 1 ∧
     (sync_trace exDB2 []).count Op.commitTxn = 1) ∧
    (exec (init_conn exDB2) [Op.disableFK]).durable = exDB2 ∧
    (exec (init_conn exDB2) (mig_ops exDB2 ++ [Op.disableFK] ++ [])).fk_enabled = false :=
  ⟨(sync_transaction_bracket exDB2 []).1,
   (sync_transaction_bracket exDB2 []).2.2.2.2.2 (by decide) [Op.disableFK]
     (by decide) (by decide),
   (sync_transaction_bracket exDB2 []).2.2.1 [] (by decide)⟩

/-! ### Claim C6: session updates during a run -/

/-- Operations that are a session upsert. -/
def Op.is_upsert : Op → Bool
  | .upsertSessionOp _ => true
  | _ => false

theorem apply_op_sessions (db : DB) (op : Op) (h : op.is_upsert = false) :
    (apply_op db op).sessions = db.sessions := by
  cases op with
  | upsertSessionOp s => simp [Op.is_upsert] at h
  | insertMessageOp m =>
    show (insert_message db m).sessions = db.sessions
    unfold insert_message
    split <;> rfl
  | insertToolCallOp t =>
    show (insert_tool_call db t).sessions = db.sessions
    unfold insert_tool_call
    split <;> rfl
  | insertToolResultOp t =>
    show (insert_tool_result db t).sessions = db.sessions
    unfold insert_tool_result
    split <;> rfl
  | setSyncStateOp fp lm off =>
    show (set_sync_state db fp lm off).sessions = db.sessions
    unfold set_sync_state
    split <;> rfl
  | _ => rfl

theorem run_ops_sessions (ops : List Op) :
    ∀ db : DB, (∀ op ∈ ops, op.is_upsert = false) →
      (run_ops db ops).sessions = db.sessions := by
  induction ops with
  | nil => exact fun _ _ => rfl
  | cons op rest ih =>
    intro db h
    have h1 := h op (List.mem_cons_self op rest)
    have := ih (apply_op db op) (fun o ho => h o (List.mem_cons_of_mem _ ho))
    exact this.trans (apply_op_sessions db op h1)

theorem get_session_run_ops_eq (ops : List Op) (db : DB)
    (h : ∀ op ∈ ops, op.is_upsert = false) (sid : String) :
    get_session (run_ops db ops) sid = get_session db sid := by
  unfold get_session
  rw [run_ops_sessions ops db h]

/-- After any upsert, the session row exists with `last_timestamp` at least
the upsert's timestamp. -/
theorem get_session_upsert_self (db : DB) (s : SessionIn) :
    ∃ r', get_session (upsert_session db s) s.id = some r' ∧
      s.timestamp ≤ r'.last_timestamp := by
  by_cases h : (db.sessions.find? (fun r => r.id == s.id)).isSome
  · rcases Option.isSome_iff_exists.mp h with ⟨r, hr⟩
    exact ⟨_, get_session_upsert_existing db s r hr, le_max_right _ _⟩
  · have hn : db.sessions.find? (fun r => r.id == s.id) = none :=
      Option.not_isSome_iff_eq_none.mp h
    refine ⟨⟨s.id, s.project_path, s.git_branch, s.cwd, s.timestamp, s.timestamp, s.summary⟩,
      ?_, le_refl _⟩
    unfold upsert_session get_session
    rw [if_neg h]
    show List.find? (fun r => r.id == s.id)
        (db.sessions ++
          [⟨s.id, s.project_path, s.git_branch, s.cwd, s.timestamp, s.timestamp, s.summary⟩]) =
      some ⟨s.id, s.project_path, s.git_branch, s.cwd, s.timestamp, s.timestamp, s.summary⟩
    rw [find?_append_none _ _ _ hn]
    exact List.find?_cons_of_pos _ (by simp)

/-- C6 (amended): within a run the owning session row is upserted only on
the first message observed for its session id — guaranteeing, for that
first message, a stored `last_timestamp` at least its timestamp — and
additionally on summary records carrying a truthy summary; any later
non-summary message leaves the `sessions` table entirely unchanged, so its
timestamp need not be reflected in the stored `last_timestamp`. -/
theorem session_upsert_guard (pp : String) (m : ParsedMsg) (seen : List String) (db : DB) :
    (seen.contains m.session_id = true →
      (m.type == "summary" && truthy m.summary) = false →
      (run_ops db (record_ops pp seen m)).sessions = db.sessions) ∧
    (seen.contains m.session_id = false →
      ∃ r', get_session (run_ops db (record_ops pp seen m)) m.session_id = some r' ∧
        m.timestamp ≤ r'.last_timestamp) := by
  constructor
  · intro hseen hcond
    apply run_ops_sessions
    intro op hop
    unfold record_ops at hop
    rcases List.mem_append.mp hop with h | h
    swap
    · rcases List.mem_map.mp h with ⟨t, _, rfl⟩; rfl
    rcases List.mem_append.mp h with h | h
    swap
    · rcases List.mem_map.mp h with ⟨t, _, rfl⟩; rfl
    rcases List.mem_append.mp h with h | h
    swap
    · simp only [List.mem_singleton] at h
      subst h; rfl
    rcases List.mem_append.mp h with h | h
    · rw [hseen] at h
      simp at h
    · rw [hcond] at h
      simp at h
  · intro hseen
    have hrec : record_ops pp seen m =
        [Op.upsertSessionOp ⟨m.session_id, pp, m.git_branch, m.cwd, m.timestamp, m.summary⟩] ++
          ((if (m.type == "summary" && truthy m.summary) = true then
              [Op.upsertSessionOp ⟨m.session_id, pp, none, none, m.timestamp, m.summary⟩]
            else []) ++
            ([Op.insertMessageOp (msg_in m)] ++
              (m.tool_calls.map (fun t =>
                Op.insertToolCallOp
                  ⟨t.id, m.uuid, m.session_id, t.tool_name, t.tool_input, m.timestamp⟩) ++
               m.tool_results.map (fun t =>
                Op.insertToolResultOp
                  ⟨t.tool_call_id, m.uuid, m.session_id, t.content, t.is_error, m.timestamp⟩)))) := by
      unfold record_ops
      rw [hseen]
      simp only [List.append_assoc]
      simp
    rw [hrec, run_ops_append, run_ops_append]
    have htail : ∀ op ∈ [Op.insertMessageOp (msg_in m)] ++
        (m.tool_calls.map (fun t =>
          Op.insertToolCallOp
            ⟨t.id, m.uuid, m.session_id, t.tool_name, t.tool_input, m.timestamp⟩) ++
         m.tool_results.map (fun t =>
          Op.insertToolResultOp
            ⟨t.tool_call_id, m.uuid, m.session_id, t.content, t.is_error, m.timestamp⟩)),
        op.is_upsert = false := by
      intro op hop
      rcases List.mem_append.mp hop with h | h
      · simp only [List.mem_singleton] at h
        subst h; rfl
      · rcases List.mem_append.mp h with h | h
        · rcases List.mem_map.mp h with ⟨t, _, rfl⟩; rfl
        · rcases List.mem_map.mp h with ⟨t, _, rfl⟩; rfl
    rw [get_session_run_ops_eq _ _ htail]
    have hfirst := get_session_upsert_self db
      ⟨m.session_id, pp, m.git_branch, m.cwd, m.timestamp, m.summary⟩
    obtain ⟨r1, hr1, hts1⟩ := hfirst
    by_cases hc : (m.type == "summary" && truthy m.summary) = true
    · rw [if_pos hc]
      have h2 := get_session_upsert_existing
        (run_ops db [Op.upsertSessionOp ⟨m.session_id, pp, m.git_branch, m.cwd, m.timestamp, m.summary⟩])
        ⟨m.session_id, pp, none, none, m.timestamp, m.summary⟩ r1 hr1
      exact ⟨_, h2, le_max_right _ _⟩
    · rw [if_neg hc]
      exact ⟨r1, hr1, hts1⟩

/-- A second message of the same session, later in the file. -/
def exMsgB : ParsedMsg :=
  ⟨"b", "s", none, "human", none, some "again", none, none, 2,
   none, none, none, none, none, none, none, [], []⟩

def exFileAB : TranscriptFile := ⟨"f.jsonl", "proj", 10, [(exMsgA, 50), (exMsgB, 100)]⟩

/-- C6 counterexample to the claim as stated: a run over one file holding
two messages of session `"s"` with timestamps 1 then 2 leaves the stored
`last_timestamp` at 1 — the second message, observed after the first, did
not extend it to at least its timestamp 2. -/
theorem session_update_counterexample :
    exFileAB.lines.map (fun p => p.1.session_id) = ["s", "s"] ∧
    exFileAB.lines.map (fun p => p.1.timestamp) = [1, 2] ∧
    (get_session (sync_run DB.empty [exFileAB]) "s").map (fun r => r.last_timestamp) =
      some 1 ∧
    ¬ (2 : Int) ≤ 1 := by decide

/-- C6 witness (for the amended claim): a seen, non-summary message changes
no session row; an unseen message materialises its session with
`last_timestamp ≥` its own timestamp. -/
theorem session_upsert_guard_witness :
    (run_ops exDB1 (record_ops "proj" ["s"] exMsgB)).sessions = exDB1.sessions ∧
    ∃ r', get_session (run_ops exDB1 (record_ops "proj" [] exMsgB)) exMsgB.session_id =
        some r' ∧ exMsgB.timestamp ≤ r'.last_timestamp :=
  ⟨(session_upsert_guard "proj" exMsgB ["s"] exDB1).1 (by decide) (by decide),
   (session_upsert_guard "proj" exMsgB [] exDB1).2 (by decide)⟩

/-! ### Claim C7: context windows -/

/-- Chronological order on message rows. -/
def msg_le (a b : MessageRow) : Prop := a.timestamp ≤ b.timestamp

instance : DecidableRel msg_le :=
  fun a b => inferInstanceAs (Decidable (a.timestamp ≤ b.timestamp))

instance : IsTotal MessageRow msg_le := ⟨fun a b => le_total a.timestamp b.timestamp⟩

instance : IsTrans MessageRow msg_le := ⟨fun _ _ _ h1 h2 => le_trans h1 h2⟩

/-- Modelled from the spec: `get_messages_around` is absent from the
provided `db.ts` snapshot (only its tests remain); per §4.4 it returns "up
to N messages strictly before and up to N strictly after the anchor, each
sub-list chronologically ordered, scoped to that session only" — the N
closest on each side. -/
def get_messages_around (db : DB) (sid : String) (anchor : Int) (n : Nat) :
    List MessageRow × List MessageRow :=
  let before_all := List.insertionSort msg_le
    (db.messages.filter (fun m => m.session_id == sid && decide (m.timestamp < anchor)))
  let after_all := List.insertionSort msg_le
    (db.messages.filter (fun m => m.session_id == sid && decide (anchor < m.timestamp)))
  (before_all.drop (before_all.length - n), after_all.take n)

/-- C7: each side of the window holds `min N count` messages — so at most
N, fewer when fewer exist — in ascending chronological order, all from the
requested session and strictly on their side of the anchor; an unknown
session id yields two empty lists and no error. -/
theorem messages_around_window (db : DB) (sid : String) (anchor : Int) (n : Nat) :
    (get_messages_around db sid anchor n).1.length =
      min n (db.messages.filter
        (fun m => m.session_id == sid && decide (m.timestamp < anchor))).length ∧
    (get_messages_around db sid anchor n).2.length =
      min n (db.messages.filter
        (fun m => m.session_id == sid && decide (anchor < m.timestamp))).length ∧
    (get_messages_around db sid anchor n).1.Sorted msg_le ∧
    (get_messages_around db sid anchor n).2.Sorted msg_le ∧
    (∀ m ∈ (get_messages_around db sid anchor n).1,
      m.session_id = sid ∧ m.timestamp < anchor) ∧
    (∀ m ∈ (get_messages_around db sid anchor n).2,
      m.session_id = sid ∧ anchor < m.timestamp) ∧
    ((∀ m ∈ db.messages, m.session_id ≠ sid) →
      (get_messages_around db sid anchor n).1 = [] ∧
      (get_messages_around db sid anchor n).2 = []) := by
  have hlenb : (List.insertionSort msg_le
      (db.messages.filter (fun m => m.session_id == sid && decide (m.timestamp < anchor)))).length =
      (db.messages.filter (fun m => m.session_id == sid && decide (m.timestamp < anchor))).length :=
    (List.perm_insertionSort msg_le _).length_eq
  have hlena : (List.insertionSort msg_le
      (db.messages.filter (fun m => m.session_id == sid && decide (anchor < m.timestamp)))).length =
      (db.messages.filter (fun m => m.session_id == sid && decide (anchor < m.timestamp))).length :=
    (List.perm_insertionSort msg_le _).length_eq
  have hsortb := List.sorted_insertionSort msg_le
    (db.messages.filter (fun m => m.session_id == sid && decide (m.timestamp < anchor)))
  have hsorta := List.sorted_insertionSort msg_le
    (db.messages.filter (fun m => m.session_id == sid && decide (anchor < m.timestamp)))
  refine ⟨?_, ?_, ?_, ?_, ?_, ?_, ?_⟩
  · show (List.drop _ _).length = _
    rw [List.length_drop, hlenb]
    omega
  · show (List.take _ _).length = _
    rw [List.length_take, hlena]
  · exact List.Pairwise.sublist (List.drop_sublist _ _) hsortb
  · exact List.Pairwise.sublist (List.take_sublist _ _) hsorta
  · intro m hm
    have hm2 : m ∈ List.insertionSort msg_le
        (db.messages.filter (fun m => m.session_id == sid && decide (m.timestamp < anchor))) :=
      (List.drop_sublist _ _).subset hm
    have hm3 := (List.perm_insertionSort msg_le _).subset hm2
    have := List.of_mem_filter hm3
    simp only [Bool.and_eq_true, beq_iff_eq, decide_eq_true_eq] at this
    exact this
  · intro m hm
    have hm2 : m ∈ List.insertionSort msg_le
        (db.messages.filter (fun m => m.session_id == sid && decide (anchor < m.timestamp))) :=
      (List.take_sublist _ _).subset hm
    have hm3 := (List.perm_insertionSort msg_le _).subset hm2
    have := List.of_mem_filter hm3
    simp only [Bool.and_eq_true, beq_iff_eq, decide_eq_true_eq] at this
    exact this
  · intro hnone
    have hfb : db.messages.filter
        (fun m => m.session_id == sid && decide (m.timestamp < anchor)) = [] := by
      rw [List.filter_eq_nil_iff]
      intro m hm
      simp [hnone m hm]
    have hfa : db.messages.filter
        (fun m => m.session_id == sid && decide (anchor < m.timestamp)) = [] := by
      rw [List.filter_eq_nil_iff]
      intro m hm
      simp [hnone m hm]
    constructor
    · show List.drop _ (List.insertionSort msg_le _) = []
      rw [hfb]
      simp
    · show List.take _ (List.insertionSort msg_le _) = []
      rw [hfa]
      simp

/-- Five chronological messages of session `"s"` plus one of another
session. -/
def exCtxDB : DB :=
  ⟨[],
   [⟨"c0", "s", none, "human", none, none, none, none, 1, 0, 0, 0, 0⟩,
    ⟨"c1", "s", none, "assistant", none, none, none, none, 2, 0, 0, 0, 0⟩,
    ⟨"c2", "s", none, "human", none, none, none, none, 3, 0, 0, 0, 0⟩,
    ⟨"c3", "s", none, "assistant", none, none, none, none, 4, 0, 0, 0, 0⟩,
    ⟨"c4", "s", none, "human", none, none, none, none, 5, 0, 0, 0, 0⟩,
    ⟨"o1", "other", none, "human", none, none, none, none, 3, 0, 0, 0, 0⟩],
   [], [], []⟩

/-- C7 witness: window of size 2 around the middle timestamp, and the
unknown-session case. -/
theorem messages_around_window_witness :
    ((get_messages_around exCtxDB "s" 3 2).1.length =
      min 2 (exCtxDB.messages.filter
        (fun m => m.session_id == "s" && decide (m.timestamp < 3))).length ∧
     (get_messages_around exCtxDB "s" 3 2).2.length =
      min 2 (exCtxDB.messages.filter
        (fun m => m.session_id == "s" && decide ((3 : Int) < m.timestamp))).length) ∧
    ((get_messages_around exCtxDB "zz" 3 2).1 = [] ∧
     (get_messages_around exCtxDB "zz" 3 2).2 = []) :=
  ⟨⟨(messages_around_window exCtxDB "s" 3 2).1,
    (messages_around_window exCtxDB "s" 3 2).2.1⟩,
   (messages_around_window exCtxDB "zz" 3 2).2.2.2.2.2.2 (by decide)⟩

/-! ### Claim C9: relevance ranking -/

/-- Whitespace tokenizer on character lists. -/
def split_chars : List Char → List Char → List (List Char)
  | [], cur => if cur.isEmpty then [] else [cur.reverse]
  | c :: rest, cur =>
      if c == ' ' then
        if cur.isEmpty then split_chars rest []
        else cur.reverse :: split_chars rest []
      else split_chars rest (c :: cur)

/-- Modelled from the spec: tokenization of a searchable field for the
bag-of-words relevance model (§4.5; the actual bm25 lives in the
third-party FTS5 engine behind the `messages_fts` shadow index). -/
def field_tokens : Option String → List String
  | some s => (split_chars s.data []).map (fun cs => String.mk cs)
  | none => []

/-- Number of query terms occurring in a field. -/
def overlap (q : List String) (field : Option String) : Nat :=
  (q.filter (fun t => (field_tokens field).contains t)).length

/-- Modelled from the spec: `content_text` carries a higher weight than
`thinking` ("the primary content field is weighted above the secondary
thinking field", §4.5); the integer weights 2 and 1 realise the strict
inequality. -/
def CONTENT_WEIGHT : Int := 2

def THINKING_WEIGHT : Int := 1

/-- Modelled from the spec: bag-of-words relevance score — negated weighted
term overlap, so lower (more negative) means more relevant and every score
is at most zero. -/
def bm25_score (q : List String) (m : MessageRow) : Int :=
  -(CONTENT_WEIGHT * (overlap q m.content_text : Int) +
    THINKING_WEIGHT * (overlap q m.thinking : Int))

/-- Ascending-score order (lower score ranks first). -/
def score_le (q : List String) (a b : MessageRow) : Prop :=
  bm25_score q a ≤ bm25_score q b

instance (q : List String) : DecidableRel (score_le q) :=
  fun a b => inferInstanceAs (Decidable (bm25_score q a ≤ bm25_score q b))

instance (q : List String) : IsTotal MessageRow (score_le q) :=
  ⟨fun a b => le_total (bm25_score q a) (bm25_score q b)⟩

instance (q : List String) : IsTrans MessageRow (score_le q) :=
  ⟨fun _ _ _ h1 h2 => le_trans h1 h2⟩

/-- Modelled from the spec: the default (relevance) result order — matches
sorted by ascending bm25 score. -/
def search_rank (q : List String) (msgs : List MessageRow) : List MessageRow :=
  List.insertionSort (score_le q) msgs

/-- C9: every score is at most zero (lower means more relevant), and for
equal term overlap a content-field match scores strictly lower than a
thinking-only match, hence precedes it at every position pair of the
default relevance order. -/
theorem ranking_weights (q : List String) (msgs : List MessageRow)
    (m1 m2 : MessageRow) (k : Nat)
    (h1 : overlap q m1.content_text = k) (h2 : overlap q m1.thinking = 0)
    (h3 : overlap q m2.content_text = 0) (h4 : overlap q m2.thinking = k)
    (hk : 0 < k) :
    (∀ m : MessageRow, bm25_score q m ≤ 0) ∧
    bm25_score q m1 < bm25_score q m2 ∧
    ∀ (i j : Fin (search_rank q msgs).length),
      (search_rank q msgs).get i = m1 → (search_rank q msgs).get j = m2 →
      (i : Nat) < (j : Nat) := by
  have hs1 : bm25_score q m1 = -(2 * (k : Int)) := by
    unfold bm25_score CONTENT_WEIGHT THINKING_WEIGHT
    rw [h1, h2]
    push_cast
    ring
  have hs2 : bm25_score q m2 = -(k : Int) := by
    unfold bm25_score CONTENT_WEIGHT THINKING_WEIGHT
    rw [h3, h4]
    push_cast
    ring
  have hlt : bm25_score q m1 < bm25_score q m2 := by
    rw [hs1, hs2]
    omega
  refine ⟨?_, hlt, ?_⟩
  · intro m
    unfold bm25_score CONTENT_WEIGHT THINKING_WEIGHT
    omega
  · intro i j hgi hgj
    have hsorted : (search_rank q msgs).Sorted (score_le q) :=
      List.sorted_insertionSort (score_le q) msgs
    rcases lt_trichotomy (i : Nat) (j : Nat) with h | h | h
    · exact h
    · exfalso
      have hij : m1 = m2 := by
        rw [← hgi, ← hgj]
        congr 1
        exact Fin.ext h
      rw [hij] at hlt
      exact lt_irrefl _ hlt
    · exfalso
      have hrel := List.Sorted.rel_get_of_lt hsorted (Fin.lt_def.mpr h)
      rw [hgi, hgj] at hrel
      exact absurd hlt (not_lt.mpr hrel)

/-- Two messages with equal two-term overlap: one matches in content, the
other only in thinking. -/
def exRankM1 : MessageRow :=
  ⟨"r1", "s", none, "assistant", none, some "sorting algorithm comparison",
   none, none, 10, 0, 0, 0, 0⟩

def exRankM2 : MessageRow :=
  ⟨"r2", "s", none, "assistant", none, some "here is my answer",
   none, some "sorting algorithm analysis", 11, 0, 0, 0, 0⟩

/-- C9 witness: on a concrete two-message store the content match scores
strictly lower and precedes the thinking-only match everywhere in the
ranked order. -/
theorem ranking_weights_witness :
    (overlap ["sorting", "algorithm"] exRankM1.content_text = 2 ∧
     overlap ["sorting", "algorithm"] exRankM1.thinking = 0 ∧
     overlap ["sorting", "algorithm"] exRankM2.content_text = 0 ∧
     overlap ["sorting", "algorithm"] exRankM2.thinking = 2) ∧
    (∀ m : MessageRow, bm25_score ["sorting", "algorithm"] m ≤ 0) ∧
    bm25_score ["sorting", "algorithm"] exRankM1 <
      bm25_score ["sorting", "algorithm"] exRankM2 ∧
    ∀ (i j : Fin (search_rank ["sorting", "algorithm"] [exRankM2, exRankM1]).length),
      (search_rank ["sorting", "algorithm"] [exRankM2, exRankM1]).get i = exRankM1 →
      (search_rank ["sorting", "algorithm"] [exRankM2, exRankM1]).get j = exRankM2 →
      (i : Nat) < (j : Nat) :=
  ⟨⟨by decide, by decide, by decide, by decide⟩,
   ranking_weights ["sorting", "algorithm"] [exRankM2, exRankM1] exRankM1 exRankM2 2
     (by decide) (by decide) (by decide) (by decide) (by decide)⟩

/-! ### Claim C8: FTS5 query escaping

Tokens are character lists.  `escape_fts5_query` itself is absent from the
provided `db.ts` snapshot (only its tests and the repo docs remain), so the
escaper, the re-specified query grammar and its matching semantics are
modelled from the spec (§4.5, §9). -/

/-- The characters special to the FTS5 query grammar per §4.5: period,
slash, hyphen, colon, parentheses, caret, plus, apostrophe. -/
def fts5_special (c : Char) : Bool :=
  c == '.' || c == '/' || c == '-' || c == ':' || c == '(' || c == ')' ||
  c == '^' || c == '+' || c == '\''

/-- Whether a token contains a special character. -/
def has_special (t : List Char) : Bool := t.any fts5_special

/-- An already-quoted phrase: starts and ends with a double quote. -/
def is_phrase (t : List Char) : Bool :=
  match t with
  | c :: rest => c == '"' && !rest.isEmpty && (rest.getLast? == some '"')
  | [] => false

/-- A trailing wildcard marker. -/
def ends_star (t : List Char) : Bool := t.getLast? == some '*'

/-- Wrap a token in FTS5 string quotes. -/
def quote_tok (t : List Char) : List Char := '"' :: (t ++ ['"'])

/-- Modelled from the spec: `escape_fts5_query`'s per-token action (§4.5) —
an already-quoted phrase passes through, a trailing wildcard marker stays
outside the quoting, and any other token containing a special character is
wrapped in double quotes. -/
def escape_token (t : List Char) : List Char :=
  if is_phrase t then t
  else if ends_star t then
    if has_special t.dropLast then quote_tok t.dropLast ++ ['*'] else t
  else if has_special t then quote_tok t
  else t

/-- The whole-query escaper over pre-split tokens. -/
def escape_fts5_query (ts : List (List Char)) : List (List Char) :=
  ts.map escape_token

/-- A bareword character of the re-specified FTS5 grammar: not special, not
a quote, star or space. -/
def word_char (c : Char) : Bool :=
  !(fts5_special c) && c != '"' && c != '*' && c != ' '

/-- A well-formed bareword. -/
def plain_word (t : List Char) : Bool := !t.isEmpty && t.all word_char

/-- A well-formed string literal: quote, interior free of quotes, quote. -/
def clean_phrase (t : List Char) : Bool :=
  match t with
  | c :: rest => c == '"' && !rest.isEmpty && (rest.getLast? == some '"') &&
      rest.dropLast.all (fun d => d != '"')
  | [] => false

/-- Modelled from the spec: a syntactically valid term of the re-specified
FTS5 query grammar (§4.5, §9) — a bareword, a string, or either followed by
the wildcard marker. -/
def wf_term (t : List Char) : Bool :=
  plain_word t || clean_phrase t ||
  (ends_star t && (plain_word t.dropLast || clean_phrase t.dropLast))

/-- Interior of a string literal. -/
def strip_quotes (t : List Char) : List Char := (t.drop 1).dropLast

/-- Modelled from the spec: matching of one query term against a document
given as its list of indexed tokens — a bareword or string matches a
document containing that exact token, a wildcard form matches any token
its stem prefixes (§4.5). -/
def tok_matches (doc : List (List Char)) (t : List Char) : Bool :=
  if plain_word t then doc.any (fun d => d == t)
  else if clean_phrase t then doc.any (fun d => d == strip_quotes t)
  else if ends_star t && plain_word t.dropLast then
    doc.any (fun d => t.dropLast.isPrefixOf d)
  else if ends_star t && clean_phrase t.dropLast then
    doc.any (fun d => (strip_quotes t.dropLast).isPrefixOf d)
  else false

/-- Modelled from the spec: absent explicit phrase quoting, multiple terms
are implicitly conjunctive (§4.5). -/
def query_matches (doc : List (List Char)) (q : List (List Char)) : Bool :=
  q.all (tok_matches doc)

/-- A raw user token as produced by whitespace-splitting a query string:
nonempty, no spaces, quotes only as a complete phrase wrapping, a star only
as the trailing wildcard of a nonempty stem. -/
def sane_token (t : List Char) : Prop :=
  t ≠ [] ∧
  (is_phrase t = false → ∀ c ∈ t, c ≠ ' ') ∧
  (is_phrase t = true → clean_phrase t = true) ∧
  (is_phrase t = false → ∀ c ∈ t, c ≠ '"') ∧
  (is_phrase t = false → ∀ c ∈ t.dropLast, c ≠ '*') ∧
  (ends_star t = true → t.dropLast ≠ [])

instance (t : List Char) : Decidable (sane_token t) := by
  unfold sane_token
  infer_instance

theorem clean_phrase_quote (t : List Char) (h : ∀ c ∈ t, c ≠ '"') :
    clean_phrase (quote_tok t) = true := by
  show clean_phrase ('"' :: (t ++ ['"'])) = true
  unfold clean_phrase
  simp [List.getLast?_concat, List.dropLast_concat, List.all_eq_true]
  intro c hc
  exact h c hc

theorem plain_word_quote (t : List Char) : plain_word (quote_tok t) = false := rfl

theorem ends_star_quote (t : List Char) : ends_star (quote_tok t) = false := by
  unfold ends_star quote_tok
  rw [← List.cons_append, List.getLast?_concat]
  rfl

theorem strip_quotes_quote (t : List Char) : strip_quotes (quote_tok t) = t := by
  show (('"' :: (t ++ ['"'])).drop 1).dropLast = t
  rw [List.drop_one, List.tail_cons, List.dropLast_concat]

theorem plain_word_of (t : List Char) (hne : t ≠ [])
    (h : ∀ c ∈ t, word_char c = true) : plain_word t = true := by
  unfold plain_word
  rw [Bool.and_eq_true]
  constructor
  · cases t with
    | nil => exact absurd rfl hne
    | cons a l => rfl
  · rw [List.all_eq_true]
    exact h

theorem word_char_of (c : Char) (h1 : fts5_special c = false) (h2 : c ≠ '"')
    (h3 : c ≠ '*') (h4 : c ≠ ' ') : word_char c = true := by
  unfold word_char
  simp [h1, bne_iff_ne, h2, h3, h4]

theorem mem_last_cases (t : List Char) (hne : t ≠ []) (c : Char) (hc : c ∈ t) :
    c ∈ t.dropLast ∨ c = t.getLast hne := by
  have hdg := List.dropLast_append_getLast hne
  rw [← hdg] at hc
  rcases List.mem_append.mp hc with h | h
  · exact Or.inl h
  · simp only [List.mem_singleton] at h
    exact Or.inr h

theorem getLast_ne_star (t : List Char) (hne : t ≠ []) (h : ends_star t = false) :
    t.getLast hne ≠ '*' := by
  intro he
  unfold ends_star at h
  rw [List.getLast?_eq_getLast t hne, he] at h
  simp at h

theorem not_special_of (t : List Char) (h : has_special t = false) :
    ∀ c ∈ t, fts5_special c = false := by
  intro c hc
  by_cases hcs : fts5_special c = true
  · have : has_special t = true := by
      unfold has_special
      exact List.any_eq_true.mpr ⟨c, hc, hcs⟩
    rw [this] at h
    cases h
  · rw [Bool.not_eq_true] at hcs
    exact hcs

/-- Per-token contract of the escaper on sane input. -/
theorem escape_token_spec (t : List Char) (doc : List (List Char)) (hs : sane_token t) :
    wf_term (escape_token t) = true ∧
    (is_phrase t = true → escape_token t = t) ∧
    (ends_star t = true → ends_star (escape_token t) = true) ∧
    (has_special t = true → is_phrase t = false → ends_star t = false →
      escape_token t = quote_tok t ∧
      (tok_matches doc (escape_token t) = true ↔ t ∈ doc)) := by
  obtain ⟨hne, hsp, hph, hqt, hst, hbs⟩ := hs
  by_cases hp : is_phrase t = true
  · have he : escape_token t = t := by simp [escape_token, hp]
    refine ⟨?_, fun _ => he, fun hstar => by rw [he]; exact hstar, ?_⟩
    · rw [he]
      have := hph hp
      simp [wf_term, this]
    · intro _ hpf _
      rw [hpf] at hp
      cases hp
  · rw [Bool.not_eq_true] at hp
    by_cases hstar : ends_star t = true
    · by_cases hspec : has_special t.dropLast = true
      · have he : escape_token t = quote_tok t.dropLast ++ ['*'] := by
          simp [escape_token, hp, hstar, hspec]
        have hnq : ∀ c ∈ t.dropLast, c ≠ '"' :=
          fun c hc => hqt hp c ((List.dropLast_sublist t).subset hc)
        have hcp : clean_phrase (quote_tok t.dropLast) = true := clean_phrase_quote _ hnq
        refine ⟨?_, ?_, ?_, ?_⟩
        · rw [he]
          have h1 : ends_star (quote_tok t.dropLast ++ ['*']) = true := by
            simp [ends_star, List.getLast?_concat]
          have h2 : (quote_tok t.dropLast ++ ['*']).dropLast = quote_tok t.dropLast :=
            List.dropLast_concat
          simp [wf_term, h1, h2, hcp]
        · intro hpp
          rw [hpp] at hp
          cases hp
        · intro _
          rw [he]
          simp [ends_star, List.getLast?_concat]
        · intro _ _ hsf
          rw [hstar] at hsf
          cases hsf
      · rw [Bool.not_eq_true] at hspec
        have he : escape_token t = t := by simp [escape_token, hp, hstar, hspec]
        have hdl : t.dropLast ≠ [] := hbs hstar
        have hpw : plain_word t.dropLast = true := by
          apply plain_word_of _ hdl
          intro c hc
          have hsub := (List.dropLast_sublist t).subset hc
          exact word_char_of c (not_special_of _ hspec c hc) (hqt hp c hsub)
            (hst hp c hc) (hsp hp c hsub)
        refine ⟨?_, ?_, fun _ => by rw [he]; exact hstar, ?_⟩
        · rw [he]
          simp [wf_term, hstar, hpw]
        · intro hpp
          rw [hpp] at hp
          cases hp
        · intro _ _ hsf
          rw [hstar] at hsf
          cases hsf
    · rw [Bool.not_eq_true] at hstar
      by_cases hspec : has_special t = true
      · have he : escape_token t = quote_tok t := by simp [escape_token, hp, hstar, hspec]
        have hnq : ∀ c ∈ t, c ≠ '"' := hqt hp
        have hcp : clean_phrase (quote_tok t) = true := clean_phrase_quote t hnq
        refine ⟨?_, ?_, ?_, ?_⟩
        · rw [he]
          simp [wf_term, hcp]
        · intro hpp
          rw [hpp] at hp
          cases hp
        · intro hsf
          rw [hstar] at hsf
          cases hsf
        · intro _ _ _
          refine ⟨he, ?_⟩
          rw [he]
          have hsq : strip_quotes (quote_tok t) = t := strip_quotes_quote t
          simp [tok_matches, plain_word_quote, hcp, hsq, List.any_eq_true]
      · rw [Bool.not_eq_true] at hspec
        have he : escape_token t = t := by simp [escape_token, hp, hstar, hspec]
        have hpw : plain_word t = true := by
          apply plain_word_of _ hne
          intro c hc
          refine word_char_of c (not_special_of _ hspec c hc) (hqt hp c hc) ?_ (hsp hp c hc)
          rcases mem_last_cases t hne c hc with h | h
          · exact hst hp c h
          · rw [h]
            exact getLast_ne_star t hne hstar
        refine ⟨?_, ?_, ?_, ?_⟩
        · rw [he]
          simp [wf_term, hpw]
        · intro hpp
          rw [hpp] at hp
          cases hp
        · intro hsf
          rw [hstar] at hsf
          cases hsf
        · intro hspf
          rw [hspf] at hspec
          cases hspec

/-- C8: on whitespace-split sane tokens the escaper quotes every token
containing a grammar-special character so the literal matches exactly,
passes an already-quoted phrase through unchanged, keeps a trailing
wildcard marker unescaped, treats multiple tokens conjunctively, and its
output is always syntactically well-formed — no malformed-search syntax is
ever observable. -/
theorem escape_fts5_contract (ts : List (List Char)) (doc : List (List Char))
    (hts : ∀ u ∈ ts, sane_token u) :
    (∀ x ∈ escape_fts5_query ts, wf_term x = true) ∧
    (∀ u ∈ ts, is_phrase u = true → escape_token u = u) ∧
    (∀ u ∈ ts, ends_star u = true → ends_star (escape_token u) = true) ∧
    (∀ u ∈ ts, has_special u = true → is_phrase u = false → ends_star u = false →
      escape_token u = quote_tok u ∧
      (tok_matches doc (escape_token u) = true ↔ u ∈ doc)) ∧
    (query_matches doc (escape_fts5_query ts) = true ↔
      ∀ u ∈ ts, tok_matches doc (escape_token u) = true) := by
  refine ⟨?_, ?_, ?_, ?_, ?_⟩
  · intro x hx
    rcases List.mem_map.mp hx with ⟨u, hu, rfl⟩
    exact (escape_token_spec u doc (hts u hu)).1
  · intro u hu
    exact (escape_token_spec u doc (hts u hu)).2.1
  · intro u hu
    exact (escape_token_spec u doc (hts u hu)).2.2.1
  · intro u hu
    exact (escape_token_spec u doc (hts u hu)).2.2.2
  · unfold query_matches escape_fts5_query
    rw [List.all_eq_true]
    constructor
    · intro h u hu
      exact h _ (List.mem_map_of_mem _ hu)
    · intro h x hx
      rcases List.mem_map.mp hx with ⟨u, hu, rfl⟩
      exact h u hu

/-- The literal query tokens of the spec's escaping test cases:
`meeting-notes.txt`, `auth*`, `"authentication bug"`, `don't`. -/
def exToks : List (List Char) :=
  ["meeting-notes.txt".data, "auth*".data, "\"authentication bug\"".data,
   ['d', 'o', 'n', '\'', 't']]

/-- A document containing the literal token `meeting-notes.txt`. -/
def exDoc : List (List Char) := ["meeting-notes.txt".data, "hello".data]

/-- C8 witness: the four test tokens are sane; every escaped output is
well-formed; the quoted literal `meeting-notes.txt` matches exactly the
document holding it. -/
theorem escape_fts5_contract_witness :
    (∀ u ∈ exToks, sane_token u) ∧
    (∀ x ∈ escape_fts5_query exToks, wf_term x = true) ∧
    (escape_token "meeting-notes.txt".data = quote_tok "meeting-notes.txt".data ∧
      (tok_matches exDoc (escape_token "meeting-notes.txt".data) = true ↔
        "meeting-notes.txt".data ∈ exDoc)) :=
  ⟨by decide,
   (escape_fts5_contract exToks exDoc (by decide)).1,
   (escape_fts5_contract exToks exDoc (by decide)).2.2.2.1 "meeting-notes.txt".data
     (by decide) (by decide) (by decide) (by decide)⟩

end Ccrecall
